import Mathlib

/-!
Verification of the clause-simplification / presolve / postsolve core of
`src/sat/simplification.cc` and the core-guided optimizer of
`src/bop/complete_optimizer.cc`, via a shallow embedding in Lean.

A literal is represented by its index `2*var + (positive ? 0 : 1)` as a plain
`Nat`; negation flips the low bit (`Literal::Negated` / `NegatedIndex` in the
C++ source).  Clauses are lists of literal indices, ordered by index, as in
the source (clauses are kept sorted by literal index).
-/

namespace OrToolsSat

/-- Negation of a literal index: flip the low bit
(`Literal::Negated()`, per the spec's data model). -/
def negLit (l : Nat) : Nat := if l % 2 = 0 then l + 1 else l - 1

/-- The variable of a literal index (`Literal::Variable()`). -/
def litVar (l : Nat) : Nat := l / 2

theorem negLit_negLit (l : Nat) : negLit (negLit l) = l := by
  unfold negLit; split_ifs <;> omega

theorem negLit_ne (l : Nat) : negLit l ≠ l := by
  unfold negLit; split_ifs <;> omega

theorem litVar_negLit (l : Nat) : litVar (negLit l) = litVar l := by
  unfold litVar negLit; split_ifs <;> omega

theorem negLit_inj {l l' : Nat} (h : negLit l = negLit l') : l = l' := by
  have h2 := congrArg negLit h
  rwa [negLit_negLit, negLit_negLit] at h2

/-- Two distinct literals over the same variable are complementary. -/
theorem eq_negLit_of_var_eq {l l' : Nat} (hv : litVar l = litVar l') (hne : l ≠ l') :
    l' = negLit l := by
  have hv' : l / 2 = l' / 2 := hv
  unfold negLit; split_ifs <;> omega

theorem litVar_eq_of_negLit {l l' : Nat} (h : l' = negLit l) : litVar l' = litVar l := by
  subst h; exact litVar_negLit l

/-- The two literals of a variable are adjacent indices. -/
theorem negLit_cases (l : Nat) : negLit l = l + 1 ∨ (l ≠ 0 ∧ negLit l = l - 1) := by
  unfold negLit; split_ifs <;> omega

/-! ### `SimplifyClause` (simplification.cc, lines 539-580)

The C++ routine walks the two sorted clauses `a` and `b` with a merge, counting
polarity mismatches in `num_diff`, remembering the iterator of the (single
allowed) mismatched literal of `b` in `to_remove`, and aborting as soon as a
second mismatch appears, a literal of `a` is provably absent from `b`, or the
remaining-size slack `size_diff` becomes negative.  We model `to_remove` as an
optional pair (position in the original `b`, literal found there).  The result
`none` means "returns false"; `some t` means "returns true" with flip info `t`.
The recursion is structural on `b` (the `*ia < *ib` case of the source returns
immediately, every other case advances `ib`). -/
def simplifyLoop : List Nat → List Nat → Nat → Option (Nat × Nat) → Nat → Nat →
    Option (Option (Nat × Nat))
  | [], _, numDiff, toRemove, _, _ => some (if numDiff = 1 then toRemove else none)
  | _ :: _, [], _, _, _, _ => none
  | la :: as, lb :: bs, numDiff, toRemove, pos, sizeDiff =>
    if la = lb then
      simplifyLoop as bs numDiff toRemove (pos + 1) sizeDiff
    else if la = negLit lb then
      if numDiff + 1 > 1 then none
      else simplifyLoop as bs (numDiff + 1) (some (pos, lb)) (pos + 1) sizeDiff
    else if la < lb then none
    else if sizeDiff = 0 then none
    else simplifyLoop (la :: as) bs numDiff toRemove (pos + 1) (sizeDiff - 1)

/-- `SimplifyClause(a, &b, &opposite_literal)`: returns
`(subsumed?, new b, opposite_literal)`.  When not subsumed the caller's `b`
is untouched; when subsumed with a flip, the flipped literal is erased from
`b` in place (the final `b->erase(to_remove)` of the source). -/
def SimplifyClause (a b : List Nat) : Bool × List Nat × Option Nat :=
  if b.length < a.length then (false, b, none)
  else
    match simplifyLoop a b 0 none 0 (b.length - a.length) with
    | none => (false, b, none)
    | some none => (true, b, none)
    | some (some (i, x)) => (true, b.eraseIdx i, some x)

example : SimplifyClause [0, 2] [0, 2, 4] = (true, [0, 2, 4], none) := by decide
example : SimplifyClause [0, 2] [1, 2, 4] = (true, [2, 4], some 1) := by decide
example : SimplifyClause [2] [3, 4] = (true, [4], some 3) := by decide
example : SimplifyClause [0, 4] [1, 2, 4] = (true, [2, 4], some 1) := by decide
example : SimplifyClause [2, 4] [2, 3, 4] = (true, [2, 3, 4], none) := by decide
example : SimplifyClause [0, 4] [1, 2, 6] = (false, [1, 2, 6], none) := by decide

/-- The `to_remove` iterator returned by a successful run of the loop points
at a valid position of the original `b`, and holds the literal found there. -/
theorem simplifyLoop_toRemove_ok :
    ∀ (a bsuf : List Nat) (nd : Nat) (tr : Option (Nat × Nat)) (pos sd : Nat)
      (bfull : List Nat), bfull.drop pos = bsuf →
      (∀ i x, tr = some (i, x) → bfull[i]? = some x) →
      ∀ r, simplifyLoop a bsuf nd tr pos sd = some (some r) →
        bfull[r.1]? = some r.2 := by
  intro a bsuf
  induction bsuf generalizing a with
  | nil =>
    intro nd tr pos sd bfull _ htr r hrun
    cases a with
    | nil =>
      simp only [simplifyLoop] at hrun
      split at hrun
      · exact htr r.1 r.2 (by cases r; simpa using hrun)
      · simp at hrun
    | cons la as => simp [simplifyLoop] at hrun
  | cons lb bs ih =>
    intro nd tr pos sd bfull hdrop htr r hrun
    have hget : bfull[pos]? = some lb := by
      have h0 : (bfull.drop pos)[0]? = some lb := by rw [hdrop]; simp
      rwa [List.getElem?_drop] at h0
    have hdrop' : bfull.drop (pos + 1) = bs := by
      have h1 : bfull.drop (pos + 1) = (bfull.drop pos).tail := by
        rw [← List.drop_drop]; simp [List.drop_one]
      rw [h1, hdrop]; rfl
    cases a with
    | nil =>
      simp only [simplifyLoop] at hrun
      split at hrun
      · exact htr r.1 r.2 (by cases r; simpa using hrun)
      · simp at hrun
    | cons la as =>
      simp only [simplifyLoop] at hrun
      split_ifs at hrun with h1 h2 h3 h4 h5
      · exact ih as nd tr (pos + 1) sd bfull hdrop' htr r hrun
      · exact ih as (nd + 1) (some (pos, lb)) (pos + 1) sd bfull hdrop'
          (by intro i x hix; obtain ⟨h1', h2'⟩ := Prod.mk.injEq .. ▸ Option.some.injEq .. ▸ hix
              exact h1' ▸ h2' ▸ hget) r hrun
      · exact ih (la :: as) nd tr (pos + 1) (sd - 1) bfull hdrop' htr r hrun

/-- C10 (frame effect of `SimplifyClause`): on any input, `b` is unchanged
unless the function returns subsumed with an opposite literal `x`, in which
case exactly the one occurrence of `x` at the recorded position is erased
(so the length drops by one and the order of the rest is kept). -/
theorem SimplifyClause_frame (a b : List Nat) :
    ((SimplifyClause a b).1 = false → (SimplifyClause a b).2.1 = b) ∧
    ((SimplifyClause a b).2.2 = none → (SimplifyClause a b).2.1 = b) ∧
    (∀ x, (SimplifyClause a b).2.2 = some x →
      (SimplifyClause a b).1 = true ∧
      ∃ i, b[i]? = some x ∧ (SimplifyClause a b).2.1 = b.eraseIdx i ∧
        (SimplifyClause a b).2.1.length + 1 = b.length) := by
  unfold SimplifyClause
  split_ifs with hlen
  · exact ⟨fun _ => rfl, fun _ => rfl, fun x hx => by simp at hx⟩
  · rcases hrun : simplifyLoop a b 0 none 0 (b.length - a.length) with _ | tr
    · exact ⟨fun _ => rfl, fun _ => rfl, fun x hx => by simp at hx⟩
    · rcases tr with _ | ⟨i, x0⟩
      · exact ⟨fun _ => rfl, fun _ => rfl, fun x hx => by simp at hx⟩
      · refine ⟨fun hfalse => by simp at hfalse, fun hnone => by simp at hnone,
          fun x hx => ?_⟩
        have hx0 : x0 = x := by simpa using hx
        subst hx0
        have hget : b[i]? = some x0 :=
          simplifyLoop_toRemove_ok a b 0 none 0 (b.length - a.length) b rfl
            (by intro i x h; simp at h) (i, x0) hrun
        have hilt : i < b.length := (List.getElem?_eq_some.mp hget).1
        refine ⟨rfl, i, hget, rfl, ?_⟩
        simp [List.length_eraseIdx, hilt]
        omega

/-- Witness for `SimplifyClause_frame` at the concrete input
`a = [0, 4]`, `b = [1, 2, 4]` (self-subsuming resolution on variable 0). -/
theorem SimplifyClause_frame_witness :
    (SimplifyClause [0, 4] [1, 2, 4]).1 = true ∧
    ∃ i, [1, 2, 4][i]? = some 1 ∧
      (SimplifyClause [0, 4] [1, 2, 4]).2.1 = [1, 2, 4].eraseIdx i ∧
      (SimplifyClause [0, 4] [1, 2, 4]).2.1.length + 1 = [1, 2, 4].length :=
  (SimplifyClause_frame [0, 4] [1, 2, 4]).2.2 1 rfl

/-! ### `ComputeResolvant` / `ComputeResolvantSize` (simplification.cc, 582-642)

Both routines merge the two sorted clauses `a ∋ x` and `b ∋ ¬x`, skipping the
`x / ¬x` pair and failing (`false` resp. `-1`) as soon as a complementary pair
on another variable is found.  The C++ loops advance one of two iterators per
step; we use explicit fuel (instantiated with `|a| + |b| + 1` at the wrapper,
which is provably sufficient) so the definitions stay kernel-computable. -/

/-- Loop of `ComputeResolvant`; `none` models `return false`. -/
def resolvantLoop (x : Nat) : Nat → List Nat → List Nat → Option (List Nat)
  | 0, _, _ => none
  | _ + 1, [], b => some b
  | _ + 1, la :: as, [] => some (la :: as)
  | fuel + 1, la :: as, lb :: bs =>
    if la = lb then (resolvantLoop x fuel as bs).map (la :: ·)
    else if la = negLit lb then
      if la ≠ x then none else resolvantLoop x fuel as bs
    else if la < lb then (resolvantLoop x fuel as (lb :: bs)).map (la :: ·)
    else (resolvantLoop x fuel (la :: as) bs).map (lb :: ·)

/-- `ComputeResolvant(x, a, b, out)`: `some out` when the resolvent is not
trivially true, `none` when it is (the function returns false). -/
def ComputeResolvant (x : Nat) (a b : List Nat) : Option (List Nat) :=
  resolvantLoop x (a.length + b.length + 1) a b

/-- Loop of `ComputeResolvantSize`; carries the running `size` and returns
`-1` on a complementary pair over a variable other than `x`'s. -/
def resolvantSizeLoop (x : Nat) : Nat → List Nat → List Nat → Int → Int
  | 0, _, _, size => size
  | _ + 1, [], _, size => size
  | _ + 1, _ :: _, [], size => size
  | fuel + 1, la :: as, lb :: bs, size =>
    if la = lb then resolvantSizeLoop x fuel as bs (size - 1)
    else if la = negLit lb then
      if la ≠ x then -1 else resolvantSizeLoop x fuel as bs size
    else if la < lb then resolvantSizeLoop x fuel as (lb :: bs) size
    else resolvantSizeLoop x fuel (la :: as) bs size

/-- `ComputeResolvantSize(x, a, b)`. -/
def ComputeResolvantSize (x : Nat) (a b : List Nat) : Int :=
  resolvantSizeLoop x (a.length + b.length + 1) a b
    ((a.length : Int) + (b.length : Int) - 2)

example : ComputeResolvant 0 [0, 2] [1, 4] = some [2, 4] := by decide
example : ComputeResolvant 0 [0, 2] [1, 3] = none := by decide
example : ComputeResolvantSize 0 [0, 2] [1, 4] = 2 := by decide
example : ComputeResolvantSize 0 [0, 2] [1, 3] = -1 := by decide
example : ComputeResolvantSize 0 [0, 2, 4] [1, 4, 6] = 3 := by decide

/-- The merge of `ComputeResolvantSize` is symmetric under swapping the two
clauses and negating the pivot, at every fuel and accumulator. -/
theorem resolvantSizeLoop_symm (x : Nat) :
    ∀ (fuel : Nat) (a b : List Nat) (s : Int),
      resolvantSizeLoop x fuel a b s = resolvantSizeLoop (negLit x) fuel b a s := by
  intro fuel
  induction fuel with
  | zero => intro a b s; rfl
  | succ f ih =>
    intro a b s
    cases a with
    | nil => cases b <;> rfl
    | cons la as =>
      cases b with
      | nil => rfl
      | cons lb bs =>
        by_cases h1 : la = lb
        · subst h1
          simp only [resolvantSizeLoop, if_pos rfl]
          exact ih as bs (s - 1)
        · by_cases h2 : la = negLit lb
          · have h2' : lb = negLit la := by rw [h2, negLit_negLit]
            have h1' : ¬ lb = la := fun h => h1 h.symm
            simp only [resolvantSizeLoop, if_neg h1, if_neg h1', if_pos h2, if_pos h2']
            by_cases h3 : la = x
            · have h3' : lb = negLit x := by rw [h2', h3]
              simp only [h3, h3', ne_eq, not_true_eq_false, if_false, ite_not]
              exact ih as bs s
            · have h3' : ¬ lb = negLit x := by
                intro h; exact h3 (by rw [h2, h, negLit_negLit])
              simp only [ne_eq, h3, h3', not_false_eq_true, if_pos]
          · have h2' : ¬ lb = negLit la := by
              intro h; exact h2 (by rw [h, negLit_negLit])
            have h1' : ¬ lb = la := fun h => h1 h.symm
            by_cases h3 : la < lb
            · have h3' : ¬ lb < la := by omega
              simp only [resolvantSizeLoop, if_neg h1, if_neg h1', if_pos h2, if_pos h2',
                if_neg h2, if_neg h2', if_pos h3, if_neg h3']
              exact ih as (lb :: bs) s
            · have h3' : lb < la := by omega
              simp only [resolvantSizeLoop, if_neg h1, if_neg h1', if_neg h2, if_neg h2',
                if_neg h3, if_pos h3']
              exact ih (la :: as) bs s

/-- C9 (resolvent symmetry): for sorted duplicate-free clauses `a ∋ x` and
`b ∋ ¬x`, `ComputeResolvantSize(x, a, b) = ComputeResolvantSize(¬x, b, a)`. -/
theorem ComputeResolvantSize_symm (x : Nat) (a b : List Nat)
    (hsa : List.Sorted (· < ·) a) (hsb : List.Sorted (· < ·) b)
    (hxa : x ∈ a) (hxb : negLit x ∈ b) :
    ComputeResolvantSize x a b = ComputeResolvantSize (negLit x) b a := by
  unfold ComputeResolvantSize
  have hfuel : a.length + b.length + 1 = b.length + a.length + 1 := by omega
  have hinit : (a.length : Int) + (b.length : Int) - 2
      = (b.length : Int) + (a.length : Int) - 2 := by omega
  rw [hfuel, hinit]
  exact resolvantSizeLoop_symm x (b.length + a.length + 1) a b _

/-- Witness for `ComputeResolvantSize_symm` at `x = 0`, `a = [0, 2, 4]`,
`b = [1, 4, 6]`. -/
theorem ComputeResolvantSize_symm_witness :
    ComputeResolvantSize 0 [0, 2, 4] [1, 4, 6]
      = ComputeResolvantSize (negLit 0) [1, 4, 6] [0, 2, 4] :=
  ComputeResolvantSize_symm 0 [0, 2, 4] [1, 4, 6]
    (by decide) (by decide) (by decide) (by decide)

/-- A clause with no complementary pair of literals ("trivial" clauses are
dropped on insertion by `SatPresolver::AddClause`). -/
def tautFree (c : List Nat) : Prop := ∀ l ∈ c, negLit l ∉ c

instance tautFreeDec (c : List Nat) : Decidable (tautFree c) :=
  decidable_of_iff (∀ l ∈ c, negLit l ∉ c) Iff.rfl

theorem tautFree_tail {la : Nat} {as : List Nat} (h : tautFree (la :: as)) :
    tautFree as := fun l hl hneg => h l (List.mem_cons_of_mem _ hl)
  (List.mem_cons_of_mem _ hneg)

theorem sorted_head_le {la z : Nat} {as : List Nat}
    (hs : List.Sorted (· < ·) (la :: as)) (hz : z ∈ la :: as) : la ≤ z := by
  rcases List.mem_cons.mp hz with h | h
  · omega
  · exact Nat.le_of_lt ((List.sorted_cons.mp hs).1 z h)

/-- Number of literals common to `a` and `b` other than `x`. -/
def commonCount (x : Nat) (a b : List Nat) : Nat :=
  (a.filter (fun l => decide (l ∈ b ∧ l ≠ x))).length

theorem commonCount_cons (x la : Nat) (as b : List Nat) :
    commonCount x (la :: as) b
      = (if la ∈ b ∧ la ≠ x then 1 else 0) + commonCount x as b := by
  simp only [commonCount, List.filter_cons]
  by_cases h : la ∈ b ∧ la ≠ x <;> simp [h] <;> omega

theorem commonCount_nil (x : Nat) (b : List Nat) : commonCount x [] b = 0 := rfl

theorem commonCount_nil_right (x : Nat) (a : List Nat) : commonCount x a [] = 0 := by
  unfold commonCount
  rw [List.filter_eq_nil_iff.mpr]
  · rfl
  · intro l _; simp

theorem commonCount_congr {x : Nat} {a : List Nat} {b b' : List Nat}
    (h : ∀ l ∈ a, l ∈ b ↔ l ∈ b') :
    commonCount x a b = commonCount x a b' := by
  unfold commonCount
  rw [List.filter_congr]
  intro l hl
  simp only [decide_eq_decide]
  exact and_congr_left (fun _ => h l hl)

/-- Size loop, no complementary pair besides the pivot: the result is the
accumulator minus the number of common literals. -/
theorem resolvantSizeLoop_noTaut (x : Nat) :
    ∀ (fuel : Nat) (a b : List Nat) (s : Int),
      a.length + b.length < fuel →
      List.Sorted (· < ·) a → List.Sorted (· < ·) b →
      (∀ z ∈ a, negLit z ∈ b → z = x) →
      x ∉ b → negLit x ∉ a →
      resolvantSizeLoop x fuel a b s = s - commonCount x a b := by
  intro fuel
  induction fuel with
  | zero => intro a b s hf; omega
  | succ f ih =>
    intro a b s hf hsa hsb hpairs hxb hnxa
    cases a with
    | nil => simp [resolvantSizeLoop, commonCount_nil]
    | cons la as =>
      cases b with
      | nil => simp [resolvantSizeLoop, commonCount_nil_right]
      | cons lb bs =>
        have hsa' := (List.sorted_cons.mp hsa).2
        have hsb' := (List.sorted_cons.mp hsb).2
        have hala := (List.sorted_cons.mp hsa).1
        have hblb := (List.sorted_cons.mp hsb).1
        simp only [resolvantSizeLoop]
        by_cases h1 : la = lb
        · rw [if_pos h1]
          have hlax : la ≠ x := by
            intro h; exact hxb (h ▸ h1 ▸ List.mem_cons_self _ _)
          have hcc : commonCount x (la :: as) (lb :: bs) = 1 + commonCount x as bs := by
            rw [commonCount_cons, if_pos ⟨h1 ▸ List.mem_cons_self _ _, hlax⟩,
              @commonCount_congr _ _ _ bs]
            intro l hl
            constructor
            · intro hmem
              rcases List.mem_cons.mp hmem with h | h
              · exact absurd (h ▸ h1 ▸ hala l hl) (by omega)
              · exact h
            · exact List.mem_cons_of_mem _
          rw [hcc, ih as bs (s - 1) (by simp at hf ⊢; omega) hsa' hsb'
            (fun z hz hnz => hpairs z (List.mem_cons_of_mem _ hz)
              (List.mem_cons_of_mem _ hnz))
            (fun h => hxb (List.mem_cons_of_mem _ h))
            (fun h => hnxa (List.mem_cons_of_mem _ h))]
          omega
        · rw [if_neg h1]
          by_cases h2 : la = negLit lb
          · rw [if_pos h2]
            have hlax : la = x := by
              refine hpairs la (List.mem_cons_self _ _) ?_
              rw [h2, negLit_negLit]; exact List.mem_cons_self _ _
            rw [if_neg (by simpa using hlax)]
            have hlbnx : lb = negLit x := by rw [← hlax, h2, negLit_negLit]
            have hcc : commonCount x (la :: as) (lb :: bs) = commonCount x as bs := by
              rw [commonCount_cons, if_neg (by simp [hlax]),
                @commonCount_congr _ _ _ bs]
              · omega
              · intro l hl
                constructor
                · intro hmem
                  rcases List.mem_cons.mp hmem with h | h
                  · exact absurd (List.mem_cons_of_mem la ((h.trans hlbnx) ▸ hl)) hnxa
                  · exact h
                · exact List.mem_cons_of_mem _
            rw [hcc]
            exact ih as bs s (by simp at hf ⊢; omega) hsa' hsb'
              (fun z hz hnz => hpairs z (List.mem_cons_of_mem _ hz)
                (List.mem_cons_of_mem _ hnz))
              (fun h => hxb (List.mem_cons_of_mem _ h))
              (fun h => hnxa (List.mem_cons_of_mem _ h))
          · rw [if_neg h2]
            by_cases h3 : la < lb
            · rw [if_pos h3]
              have hcc : commonCount x (la :: as) (lb :: bs)
                  = commonCount x as (lb :: bs) := by
                rw [commonCount_cons, if_neg]
                · omega
                · rintro ⟨hmem, -⟩
                  rcases List.mem_cons.mp hmem with h | h
                  · exact h1 h
                  · exact absurd (hblb la h) (by omega)
              rw [hcc]
              exact ih as (lb :: bs) s (by simp at hf ⊢; omega) hsa' hsb
                (fun z hz hnz => hpairs z (List.mem_cons_of_mem _ hz) hnz)
                hxb (fun h => hnxa (List.mem_cons_of_mem _ h))
            · rw [if_neg h3]
              have hcc : commonCount x (la :: as) (lb :: bs)
                  = commonCount x (la :: as) bs := by
                refine commonCount_congr ?_
                intro l hl
                constructor
                · intro hmem
                  rcases List.mem_cons.mp hmem with h | h
                  · exact absurd (sorted_head_le hsa hl) (by omega)
                  · exact h
                · exact List.mem_cons_of_mem _
              rw [hcc]
              exact ih (la :: as) bs s (by simp at hf ⊢; omega) hsa hsb'
                (fun z hz hnz => by
                  refine hpairs z hz ?_
                  exact List.mem_cons_of_mem _ hnz)
                (fun h => hxb (List.mem_cons_of_mem _ h)) hnxa

/-- Size loop, complementary pair on a variable other than the pivot's:
the loop runs into the pair and returns `-1`. -/
theorem resolvantSizeLoop_taut (x : Nat) :
    ∀ (fuel : Nat) (a b : List Nat) (s : Int) (z : Nat),
      a.length + b.length < fuel →
      List.Sorted (· < ·) a → List.Sorted (· < ·) b →
      tautFree a → tautFree b →
      z ∈ a → negLit z ∈ b → z ≠ x →
      resolvantSizeLoop x fuel a b s = -1 := by
  intro fuel
  induction fuel with
  | zero => intro a b s z hf; omega
  | succ f ih =>
    intro a b s z hf hsa hsb hta htb hza hzb hzx
    cases a with
    | nil => simp at hza
    | cons la as =>
      cases b with
      | nil => simp at hzb
      | cons lb bs =>
        have hsa' := (List.sorted_cons.mp hsa).2
        have hsb' := (List.sorted_cons.mp hsb).2
        have hala := (List.sorted_cons.mp hsa).1
        have hblb := (List.sorted_cons.mp hsb).1
        simp only [resolvantSizeLoop]
        by_cases h1 : la = lb
        · rw [if_pos h1]
          have hzla : z ≠ la := by
            intro h
            exact htb z (h ▸ h1 ▸ List.mem_cons_self _ _) hzb
          have hza' : z ∈ as := by
            rcases List.mem_cons.mp hza with h | h
            · exact absurd h hzla
            · exact h
          have hzb' : negLit z ∈ bs := by
            rcases List.mem_cons.mp hzb with h | h
            · have hmem : negLit z ∈ la :: as := by
                rw [h, ← h1]; exact List.mem_cons_self _ _
              exact absurd hmem (hta z hza)
            · exact h
          exact ih as bs (s - 1) z (by simp at hf ⊢; omega) hsa' hsb'
            (tautFree_tail hta) (tautFree_tail htb) hza' hzb' hzx
        · rw [if_neg h1]
          by_cases h2 : la = negLit lb
          · rw [if_pos h2]
            by_cases hlax : la = x
            · rw [if_neg (not_not_intro hlax)]
              have hzla : z ≠ la := fun h => hzx (h.trans hlax)
              have hza' : z ∈ as := by
                rcases List.mem_cons.mp hza with h | h
                · exact absurd h hzla
                · exact h
              have hzb' : negLit z ∈ bs := by
                rcases List.mem_cons.mp hzb with h | h
                · have : z = la := by
                    have h' : negLit (negLit z) = negLit lb := congrArg negLit h
                    rw [negLit_negLit] at h'
                    exact h'.trans h2.symm
                  exact absurd this hzla
                · exact h
              exact ih as bs s z (by simp at hf ⊢; omega) hsa' hsb'
                (tautFree_tail hta) (tautFree_tail htb) hza' hzb' hzx
            · rw [if_pos hlax]
          · rw [if_neg h2]
            by_cases h3 : la < lb
            · rw [if_pos h3]
              have hzla : z ≠ la := by
                intro h
                subst h
                rcases List.mem_cons.mp hzb with hh | hh
                · exact h2 (by rw [← hh, negLit_negLit])
                · have := hblb (negLit z) hh
                  rcases negLit_cases z with hc | hc <;> omega
              have hza' : z ∈ as := by
                rcases List.mem_cons.mp hza with h | h
                · exact absurd h hzla
                · exact h
              exact ih as (lb :: bs) s z (by simp at hf ⊢; omega) hsa' hsb
                (tautFree_tail hta) htb hza' hzb hzx
            · rw [if_neg h3]
              have hzlb : negLit z ≠ lb := by
                intro h
                have hlez := sorted_head_le hsa hza
                have hlaz : la = z := by
                  rcases negLit_cases z with hc | hc <;> omega
                exact h2 (by rw [← h, negLit_negLit, hlaz])
              have hzb' : negLit z ∈ bs := by
                rcases List.mem_cons.mp hzb with h | h
                · exact absurd h hzlb
                · exact h
              exact ih (la :: as) bs s z (by simp at hf ⊢; omega) hsa hsb'
                hta (tautFree_tail htb) hza hzb' hzx

/-- Resolvent loop, complementary pair on a variable other than the pivot's:
`ComputeResolvant` returns false. -/
theorem resolvantLoop_taut (x : Nat) :
    ∀ (fuel : Nat) (a b : List Nat) (z : Nat),
      a.length + b.length < fuel →
      List.Sorted (· < ·) a → List.Sorted (· < ·) b →
      tautFree a → tautFree b →
      z ∈ a → negLit z ∈ b → z ≠ x →
      resolvantLoop x fuel a b = none := by
  intro fuel
  induction fuel with
  | zero => intro a b z hf; omega
  | succ f ih =>
    intro a b z hf hsa hsb hta htb hza hzb hzx
    cases a with
    | nil => simp at hza
    | cons la as =>
      cases b with
      | nil => simp at hzb
      | cons lb bs =>
        have hsa' := (List.sorted_cons.mp hsa).2
        have hsb' := (List.sorted_cons.mp hsb).2
        have hala := (List.sorted_cons.mp hsa).1
        have hblb := (List.sorted_cons.mp hsb).1
        simp only [resolvantLoop]
        by_cases h1 : la = lb
        · rw [if_pos h1]
          have hzla : z ≠ la := by
            intro h
            exact htb z (h ▸ h1 ▸ List.mem_cons_self _ _) hzb
          have hza' : z ∈ as := by
            rcases List.mem_cons.mp hza with h | h
            · exact absurd h hzla
            · exact h
          have hzb' : negLit z ∈ bs := by
            rcases List.mem_cons.mp hzb with h | h
            · have hmem : negLit z ∈ la :: as := by
                rw [h, ← h1]; exact List.mem_cons_self _ _
              exact absurd hmem (hta z hza)
            · exact h
          rw [ih as bs z (by simp at hf ⊢; omega) hsa' hsb'
            (tautFree_tail hta) (tautFree_tail htb) hza' hzb' hzx]
          rfl
        · rw [if_neg h1]
          by_cases h2 : la = negLit lb
          · rw [if_pos h2]
            by_cases hlax : la = x
            · rw [if_neg (not_not_intro hlax)]
              have hzla : z ≠ la := fun h => hzx (h.trans hlax)
              have hza' : z ∈ as := by
                rcases List.mem_cons.mp hza with h | h
                · exact absurd h hzla
                · exact h
              have hzb' : negLit z ∈ bs := by
                rcases List.mem_cons.mp hzb with h | h
                · have h' : negLit (negLit z) = negLit lb := congrArg negLit h
                  rw [negLit_negLit] at h'
                  exact absurd (h'.trans h2.symm) hzla
                · exact h
              exact ih as bs z (by simp at hf ⊢; omega) hsa' hsb'
                (tautFree_tail hta) (tautFree_tail htb) hza' hzb' hzx
            · rw [if_pos hlax]
          · rw [if_neg h2]
            by_cases h3 : la < lb
            · rw [if_pos h3]
              have hzla : z ≠ la := by
                intro h
                subst h
                rcases List.mem_cons.mp hzb with hh | hh
                · exact h2 (by rw [← hh, negLit_negLit])
                · have := hblb (negLit z) hh
                  rcases negLit_cases z with hc | hc <;> omega
              have hza' : z ∈ as := by
                rcases List.mem_cons.mp hza with h | h
                · exact absurd h hzla
                · exact h
              rw [ih as (lb :: bs) z (by simp at hf ⊢; omega) hsa' hsb
                (tautFree_tail hta) htb hza' hzb hzx]
              rfl
            · rw [if_neg h3]
              have hzlb : negLit z ≠ lb := by
                intro h
                have hlez := sorted_head_le hsa hza
                have hlaz : la = z := by
                  rcases negLit_cases z with hc | hc <;> omega
                exact h2 (by rw [← h, negLit_negLit, hlaz])
              have hzb' : negLit z ∈ bs := by
                rcases List.mem_cons.mp hzb with h | h
                · exact absurd h hzlb
                · exact h
              rw [ih (la :: as) bs z (by simp at hf ⊢; omega) hsa hsb'
                hta (tautFree_tail htb) hza hzb' hzx]
              rfl

/-- Resolvent loop, no complementary pair besides the pivot: the output is
the sorted merge of `a \ {x}` and `b \ {¬x}`. -/
theorem resolvantLoop_noTaut (x : Nat) :
    ∀ (fuel : Nat) (a b : List Nat),
      a.length + b.length < fuel →
      List.Sorted (· < ·) a → List.Sorted (· < ·) b →
      (∀ z ∈ a, negLit z ∈ b → z = x) →
      x ∉ b → negLit x ∉ a →
      ((x ∈ a ∧ negLit x ∈ b) ∨ (x ∉ a ∧ negLit x ∉ b)) →
      ∃ out, resolvantLoop x fuel a b = some out ∧
        (∀ l, l ∈ out ↔ ((l ∈ a ∧ l ≠ x) ∨ (l ∈ b ∧ l ≠ negLit x))) ∧
        List.Sorted (· < ·) out ∧
        (∀ m, (∀ l ∈ a, m < l) → (∀ l ∈ b, m < l) → ∀ l ∈ out, m < l) := by
  intro fuel
  induction fuel with
  | zero => intro a b hf; omega
  | succ f ih =>
    intro a b hf hsa hsb hpairs hxb hnxa hP2
    cases a with
    | nil =>
      have hnxb : negLit x ∉ b := by
        rcases hP2 with ⟨hxa, -⟩ | ⟨-, h⟩
        · simp at hxa
        · exact h
      refine ⟨b, rfl, ?_, hsb, fun m _ hmb l hl => hmb l hl⟩
      intro l
      constructor
      · intro hl
        exact Or.inr ⟨hl, fun h => hnxb (h ▸ hl)⟩
      · rintro (⟨hl, -⟩ | ⟨hl, -⟩)
        · simp at hl
        · exact hl
    | cons la as =>
      cases b with
      | nil =>
        have hxa : x ∉ la :: as := by
          rcases hP2 with ⟨-, hb⟩ | ⟨h, -⟩
          · simp at hb
          · exact h
        refine ⟨la :: as, rfl, ?_, hsa, fun m hma _ l hl => hma l hl⟩
        intro l
        constructor
        · intro hl
          exact Or.inl ⟨hl, fun h => hxa (h ▸ hl)⟩
        · rintro (⟨hl, -⟩ | ⟨hl, -⟩)
          · exact hl
          · simp at hl
      | cons lb bs =>
        have hsa' := (List.sorted_cons.mp hsa).2
        have hsb' := (List.sorted_cons.mp hsb).2
        have hala := (List.sorted_cons.mp hsa).1
        have hblb := (List.sorted_cons.mp hsb).1
        simp only [resolvantLoop]
        by_cases h1 : la = lb
        · rw [if_pos h1]
          have hlax : la ≠ x := fun h => hxb (h ▸ h1 ▸ List.mem_cons_self _ _)
          have hlbnx : lb ≠ negLit x := fun h =>
            hnxa (h ▸ h1 ▸ List.mem_cons_self la as)
          obtain ⟨out', hout', hmem, hsort, hbnd⟩ :=
            ih as bs (by simp at hf ⊢; omega) hsa' hsb'
              (fun z hz hnz => hpairs z (List.mem_cons_of_mem _ hz)
                (List.mem_cons_of_mem _ hnz))
              (fun h => hxb (List.mem_cons_of_mem _ h))
              (fun h => hnxa (List.mem_cons_of_mem _ h))
              (by
                rcases hP2 with ⟨hxa, hxbm⟩ | ⟨hxa, hxbm⟩
                · refine Or.inl ⟨?_, ?_⟩
                  · rcases List.mem_cons.mp hxa with h | h
                    · exact absurd h.symm hlax
                    · exact h
                  · rcases List.mem_cons.mp hxbm with h | h
                    · exact absurd h.symm hlbnx
                    · exact h
                · exact Or.inr ⟨fun h => hxa (List.mem_cons_of_mem _ h),
                    fun h => hxbm (List.mem_cons_of_mem _ h)⟩)
          refine ⟨la :: out', by rw [hout']; rfl, ?_, ?_, ?_⟩
          · intro l
            rw [List.mem_cons]
            constructor
            · rintro (rfl | hl)
              · exact Or.inl ⟨List.mem_cons_self _ _, hlax⟩
              · rcases (hmem l).mp hl with ⟨h, hx⟩ | ⟨h, hx⟩
                · exact Or.inl ⟨List.mem_cons_of_mem _ h, hx⟩
                · exact Or.inr ⟨List.mem_cons_of_mem _ h, hx⟩
            · rintro (⟨hl, hx⟩ | ⟨hl, hx⟩)
              · rcases List.mem_cons.mp hl with rfl | hl'
                · exact Or.inl rfl
                · exact Or.inr ((hmem l).mpr (Or.inl ⟨hl', hx⟩))
              · rcases List.mem_cons.mp hl with rfl | hl'
                · exact Or.inl h1.symm
                · exact Or.inr ((hmem l).mpr (Or.inr ⟨hl', hx⟩))
          · refine List.sorted_cons.mpr ⟨?_, hsort⟩
            exact hbnd la hala (fun l hl => h1 ▸ hblb l hl)
          · intro m hma hmb l hl
            rcases List.mem_cons.mp hl with rfl | hl'
            · exact hma l (List.mem_cons_self _ _)
            · exact hbnd m (fun l' hl' => hma l' (List.mem_cons_of_mem _ hl'))
                (fun l' hl' => hmb l' (List.mem_cons_of_mem _ hl')) l hl'
        · rw [if_neg h1]
          by_cases h2 : la = negLit lb
          · rw [if_pos h2]
            have hlax : la = x := by
              refine hpairs la (List.mem_cons_self _ _) ?_
              rw [h2, negLit_negLit]; exact List.mem_cons_self _ _
            have hlbnx : lb = negLit x := by rw [← hlax, h2, negLit_negLit]
            rw [if_neg (not_not_intro hlax)]
            obtain ⟨out', hout', hmem, hsort, hbnd⟩ :=
              ih as bs (by simp at hf ⊢; omega) hsa' hsb'
                (fun z hz hnz => hpairs z (List.mem_cons_of_mem _ hz)
                  (List.mem_cons_of_mem _ hnz))
                (fun h => hxb (List.mem_cons_of_mem _ h))
                (fun h => hnxa (List.mem_cons_of_mem _ h))
                (Or.inr ⟨fun h => absurd (hala x h) (by omega),
                  fun h => absurd (hblb (negLit x) h) (by rw [← hlbnx]; omega)⟩)
            refine ⟨out', hout', ?_, hsort, ?_⟩
            · intro l
              rw [hmem l]
              constructor
              · rintro (⟨hl, hx⟩ | ⟨hl, hx⟩)
                · exact Or.inl ⟨List.mem_cons_of_mem _ hl, hx⟩
                · exact Or.inr ⟨List.mem_cons_of_mem _ hl, hx⟩
              · rintro (⟨hl, hx⟩ | ⟨hl, hx⟩)
                · rcases List.mem_cons.mp hl with rfl | hl'
                  · exact absurd hlax hx
                  · exact Or.inl ⟨hl', hx⟩
                · rcases List.mem_cons.mp hl with rfl | hl'
                  · exact absurd hlbnx hx
                  · exact Or.inr ⟨hl', hx⟩
            · intro m hma hmb l hl
              exact hbnd m (fun l' hl' => hma l' (List.mem_cons_of_mem _ hl'))
                (fun l' hl' => hmb l' (List.mem_cons_of_mem _ hl')) l hl
          · rw [if_neg h2]
            by_cases h3 : la < lb
            · rw [if_pos h3]
              have hlax : la ≠ x := by
                intro h
                subst h
                rcases hP2 with ⟨-, hxbm⟩ | ⟨hxa, -⟩
                · rcases List.mem_cons.mp hxbm with hh | hh
                  · exact h2 (by rw [← hh, negLit_negLit])
                  · have := hblb (negLit la) hh
                    rcases negLit_cases la with hc | hc <;> omega
                · exact hxa (List.mem_cons_self _ _)
              obtain ⟨out', hout', hmem, hsort, hbnd⟩ :=
                ih as (lb :: bs) (by simp at hf ⊢; omega) hsa' hsb
                  (fun z hz hnz => hpairs z (List.mem_cons_of_mem _ hz) hnz)
                  hxb
                  (fun h => hnxa (List.mem_cons_of_mem _ h))
                  (by
                    rcases hP2 with ⟨hxa, hxbm⟩ | ⟨hxa, hxbm⟩
                    · refine Or.inl ⟨?_, hxbm⟩
                      rcases List.mem_cons.mp hxa with h | h
                      · exact absurd h.symm hlax
                      · exact h
                    · exact Or.inr ⟨fun h => hxa (List.mem_cons_of_mem _ h), hxbm⟩)
              refine ⟨la :: out', by rw [hout']; rfl, ?_, ?_, ?_⟩
              · intro l
                rw [List.mem_cons]
                constructor
                · rintro (rfl | hl)
                  · exact Or.inl ⟨List.mem_cons_self _ _, hlax⟩
                  · rcases (hmem l).mp hl with ⟨h, hx⟩ | ⟨h, hx⟩
                    · exact Or.inl ⟨List.mem_cons_of_mem _ h, hx⟩
                    · exact Or.inr ⟨h, hx⟩
                · rintro (⟨hl, hx⟩ | ⟨hl, hx⟩)
                  · rcases List.mem_cons.mp hl with rfl | hl'
                    · exact Or.inl rfl
                    · exact Or.inr ((hmem l).mpr (Or.inl ⟨hl', hx⟩))
                  · exact Or.inr ((hmem l).mpr (Or.inr ⟨hl, hx⟩))
              · refine List.sorted_cons.mpr ⟨?_, hsort⟩
                refine hbnd la hala ?_
                intro l hl
                rcases List.mem_cons.mp hl with rfl | hl'
                · exact h3
                · exact Nat.lt_trans h3 (hblb l hl')
              · intro m hma hmb l hl
                rcases List.mem_cons.mp hl with rfl | hl'
                · exact hma l (List.mem_cons_self _ _)
                · exact hbnd m (fun l' hl' => hma l' (List.mem_cons_of_mem _ hl'))
                    hmb l hl'
            · rw [if_neg h3]
              have h3' : lb < la := by omega
              have hlbnx : lb ≠ negLit x := by
                intro h
                rcases hP2 with ⟨hxa, -⟩ | ⟨-, hxbm⟩
                · have hhx : negLit lb = x := by rw [h, negLit_negLit]
                  have hlanex : la ≠ x := fun he => h2 (he.trans hhx.symm)
                  have hlex := sorted_head_le hsa hxa
                  rcases negLit_cases x with hc | hc <;> omega
                · exact hxbm (h ▸ List.mem_cons_self _ _)
              obtain ⟨out', hout', hmem, hsort, hbnd⟩ :=
                ih (la :: as) bs (by simp at hf ⊢; omega) hsa hsb'
                  (fun z hz hnz => hpairs z hz (List.mem_cons_of_mem _ hnz))
                  (fun h => hxb (List.mem_cons_of_mem _ h))
                  hnxa
                  (by
                    rcases hP2 with ⟨hxa, hxbm⟩ | ⟨hxa, hxbm⟩
                    · refine Or.inl ⟨hxa, ?_⟩
                      rcases List.mem_cons.mp hxbm with h | h
                      · exact absurd h.symm hlbnx
                      · exact h
                    · exact Or.inr ⟨hxa, fun h => hxbm (List.mem_cons_of_mem _ h)⟩)
              refine ⟨lb :: out', by rw [hout']; rfl, ?_, ?_, ?_⟩
              · intro l
                rw [List.mem_cons]
                constructor
                · rintro (rfl | hl)
                  · exact Or.inr ⟨List.mem_cons_self _ _, hlbnx⟩
                  · rcases (hmem l).mp hl with ⟨h, hx⟩ | ⟨h, hx⟩
                    · exact Or.inl ⟨h, hx⟩
                    · exact Or.inr ⟨List.mem_cons_of_mem _ h, hx⟩
                · rintro (⟨hl, hx⟩ | ⟨hl, hx⟩)
                  · exact Or.inr ((hmem l).mpr (Or.inl ⟨hl, hx⟩))
                  · rcases List.mem_cons.mp hl with rfl | hl'
                    · exact Or.inl rfl
                    · exact Or.inr ((hmem l).mpr (Or.inr ⟨hl', hx⟩))
              · refine List.sorted_cons.mpr ⟨?_, hsort⟩
                refine hbnd lb ?_ hblb
                intro l hl
                rcases List.mem_cons.mp hl with rfl | hl'
                · exact h3'
                · exact Nat.lt_trans h3' (hala l hl')
              · intro m hma hmb l hl
                rcases List.mem_cons.mp hl with rfl | hl'
                · exact hmb l (List.mem_cons_self _ _)
                · exact hbnd m hma
                    (fun l' hl' => hmb l' (List.mem_cons_of_mem _ hl')) l hl'

/-- C4 (resolvent computation contract): for sorted, duplicate-free,
tautology-free clauses `a ∋ x`, `b ∋ ¬x`: if some literal other than `x`
appears with both polarities across `a` and `b` then `ComputeResolvantSize`
returns `-1` and `ComputeResolvant` returns false; otherwise the size is
`|a| + |b| - 2 - #(common literals other than x)` and `ComputeResolvant`
produces the sorted merge of `a \ {x}` and `b \ {¬x}`. -/
theorem ComputeResolvant_contract (x : Nat) (a b : List Nat)
    (hsa : List.Sorted (· < ·) a) (hsb : List.Sorted (· < ·) b)
    (hta : tautFree a) (htb : tautFree b)
    (hxa : x ∈ a) (hxb : negLit x ∈ b) :
    ((∃ z ∈ a, negLit z ∈ b ∧ z ≠ x) →
        ComputeResolvantSize x a b = -1 ∧ ComputeResolvant x a b = none) ∧
    (¬ (∃ z ∈ a, negLit z ∈ b ∧ z ≠ x) →
        (ComputeResolvantSize x a b
            = (a.length : Int) + (b.length : Int) - 2 - (commonCount x a b : Int) ∧
          ∃ out, ComputeResolvant x a b = some out ∧ List.Sorted (· < ·) out ∧
            ∀ l, (l ∈ out ↔ ((l ∈ a ∧ l ≠ x) ∨ (l ∈ b ∧ l ≠ negLit x))))) := by
  have hfuel : a.length + b.length < a.length + b.length + 1 := Nat.lt_succ_self _
  constructor
  · rintro ⟨z, hz, hnz, hzx⟩
    exact ⟨resolvantSizeLoop_taut x _ a b _ z hfuel hsa hsb hta htb hz hnz hzx,
      resolvantLoop_taut x _ a b z hfuel hsa hsb hta htb hz hnz hzx⟩
  · intro hno
    have hpairs : ∀ z ∈ a, negLit z ∈ b → z = x := by
      intro z hz hnz
      by_contra h
      exact hno ⟨z, hz, hnz, h⟩
    have hxnb : x ∉ b := fun h => htb (negLit x) hxb (by rwa [negLit_negLit])
    have hnxa : negLit x ∉ a := hta x hxa
    constructor
    · exact resolvantSizeLoop_noTaut x _ a b _ hfuel hsa hsb hpairs hxnb hnxa
    · obtain ⟨out, hout, hmem, hsort, -⟩ :=
        resolvantLoop_noTaut x _ a b hfuel hsa hsb hpairs hxnb hnxa
          (Or.inl ⟨hxa, hxb⟩)
      exact ⟨out, hout, hsort, hmem⟩

/-- Witness for `ComputeResolvant_contract` at `x = 0`, `a = [0, 2]`,
`b = [1, 4]` (non-tautological resolvent `[2, 4]`). -/
theorem ComputeResolvant_contract_witness :
    ComputeResolvantSize 0 [0, 2] [1, 4]
        = (([0, 2] : List Nat).length : Int) + (([1, 4] : List Nat).length : Int)
          - 2 - (commonCount 0 [0, 2] [1, 4] : Int) ∧
      ∃ out, ComputeResolvant 0 [0, 2] [1, 4] = some out ∧ List.Sorted (· < ·) out ∧
        ∀ l, (l ∈ out ↔ ((l ∈ ([0, 2] : List Nat) ∧ l ≠ 0) ∨
          (l ∈ ([1, 4] : List Nat) ∧ l ≠ negLit 0))) :=
  (ComputeResolvant_contract 0 [0, 2] [1, 4] (by decide) (by decide)
    (by decide) (by decide) (by decide) (by decide)).2 (by decide)

/-! ### Characterization of `SimplifyClause` (claim C2)

`MatchRel a b k` mirrors the decision structure of `simplifyLoop`: `a` embeds
into `b` in sorted order using at most `k` polarity flips, taking the same
branch the merge takes. -/
def MatchRel : List Nat → List Nat → Nat → Prop
  | [], _, _ => True
  | _ :: _, [], _ => False
  | la :: as, lb :: bs, k =>
    if la = lb then MatchRel as bs k
    else if la = negLit lb then 1 ≤ k ∧ MatchRel as bs (k - 1)
    else if la < lb then False
    else MatchRel (la :: as) bs k

theorem MatchRel_length : ∀ (b a : List Nat) (k : Nat),
    MatchRel a b k → a.length ≤ b.length := by
  intro b
  induction b with
  | nil =>
    intro a k h
    cases a with
    | nil => simp
    | cons la as => exact absurd h (by simp [MatchRel])
  | cons lb bs ih =>
    intro a k h
    cases a with
    | nil => simp
    | cons la as =>
      simp only [MatchRel] at h
      split_ifs at h with h1 h2 h3
      · simpa using ih as k h
      · simpa using ih as (k - 1) h.2
      · have := ih (la :: as) k h
        simp at this ⊢
        omega

/-- Once `num_diff = 1`, a successful run returns exactly the stored
`to_remove`. -/
theorem simplifyLoop_res_of_one :
    ∀ (bsuf a : List Nat) (tr : Option (Nat × Nat)) (pos sd : Nat) (res : Option (Nat × Nat)),
      simplifyLoop a bsuf 1 tr pos sd = some res → res = tr := by
  intro bsuf
  induction bsuf with
  | nil =>
    intro a tr pos sd res h
    cases a with
    | nil => simpa [simplifyLoop] using h.symm
    | cons la as => simp [simplifyLoop] at h
  | cons lb bs ih =>
    intro a tr pos sd res h
    cases a with
    | nil => simpa [simplifyLoop] using h.symm
    | cons la as =>
      simp only [simplifyLoop] at h
      by_cases h1 : la = lb
      · rw [if_pos h1] at h
        exact ih as tr (pos + 1) sd res h
      · rw [if_neg h1] at h
        by_cases h2 : la = negLit lb
        · rw [if_pos h2, if_pos (by omega : 1 + 1 > 1)] at h
          exact absurd h (by simp)
        · rw [if_neg h2] at h
          by_cases h3 : la < lb
          · rw [if_pos h3] at h
            exact absurd h (by simp)
          · rw [if_neg h3] at h
            by_cases h4 : sd = 0
            · rw [if_pos h4] at h
              exact absurd h (by simp)
            · rw [if_neg h4] at h
              exact ih (la :: as) tr (pos + 1) (sd - 1) res h

/-- Every literal of `a` consumed by a successful run is present in the
remaining `b`, or is the negation of the literal recorded in the result. -/
theorem simplifyLoop_mem_sound :
    ∀ (bsuf a : List Nat) (nd : Nat) (tr : Option (Nat × Nat)) (pos sd : Nat)
      (res : Option (Nat × Nat)),
      simplifyLoop a bsuf nd tr pos sd = some res →
      ∀ l ∈ a, l ∈ bsuf ∨ ∃ i x, res = some (i, x) ∧ l = negLit x ∧ x ∈ bsuf := by
  intro bsuf
  induction bsuf with
  | nil =>
    intro a nd tr pos sd res h l hl
    cases a with
    | nil => simp at hl
    | cons la as => simp [simplifyLoop] at h
  | cons lb bs ih =>
    intro a nd tr pos sd res h l hl
    cases a with
    | nil => simp at hl
    | cons la as =>
      simp only [simplifyLoop] at h
      split_ifs at h with h1 h2 h3 h4
      · rcases List.mem_cons.mp hl with rfl | hl'
        · exact Or.inl (h1 ▸ List.mem_cons_self _ _)
        · rcases ih as nd tr (pos + 1) sd res h l hl' with hmem | ⟨i, x, hres, hlx, hxmem⟩
          · exact Or.inl (List.mem_cons_of_mem _ hmem)
          · exact Or.inr ⟨i, x, hres, hlx, List.mem_cons_of_mem _ hxmem⟩
      · -- flip branch: nd + 1 ≤ 1, so nd = 0 and the recursion runs with nd = 1
        have hnd : nd = 0 := by omega
        subst hnd
        have hres : res = some (pos, lb) :=
          simplifyLoop_res_of_one bs as (some (pos, lb)) (pos + 1) sd res h
        rcases List.mem_cons.mp hl with rfl | hl'
        · exact Or.inr ⟨pos, lb, hres, h2, List.mem_cons_self _ _⟩
        · rcases ih as 1 (some (pos, lb)) (pos + 1) sd res h l hl' with
            hmem | ⟨i, x, hres', hlx, hxmem⟩
          · exact Or.inl (List.mem_cons_of_mem _ hmem)
          · exact Or.inr ⟨i, x, hres', hlx, List.mem_cons_of_mem _ hxmem⟩
      · rcases ih (la :: as) nd tr (pos + 1) (sd - 1) res h l hl with
          hmem | ⟨i, x, hres, hlx, hxmem⟩
        · exact Or.inl (List.mem_cons_of_mem _ hmem)
        · exact Or.inr ⟨i, x, hres, hlx, List.mem_cons_of_mem _ hxmem⟩

/-- When a run starting with an empty `to_remove` reports a flip, the negation
of the removed literal occurs in `a`. -/
theorem simplifyLoop_flip_origin :
    ∀ (bsuf a : List Nat) (nd pos sd : Nat) (i x : Nat),
      simplifyLoop a bsuf nd none pos sd = some (some (i, x)) →
      negLit x ∈ a := by
  intro bsuf
  induction bsuf with
  | nil =>
    intro a nd pos sd i x h
    cases a with
    | nil =>
      simp only [simplifyLoop] at h
      split at h <;> simp at h
    | cons la as => simp [simplifyLoop] at h
  | cons lb bs ih =>
    intro a nd pos sd i x h
    cases a with
    | nil =>
      simp only [simplifyLoop] at h
      split at h <;> simp at h
    | cons la as =>
      simp only [simplifyLoop] at h
      by_cases h1 : la = lb
      · rw [if_pos h1] at h
        exact List.mem_cons_of_mem _ (ih as nd (pos + 1) sd i x h)
      · rw [if_neg h1] at h
        by_cases h2 : la = negLit lb
        · rw [if_pos h2] at h
          by_cases hnd : nd + 1 > 1
          · rw [if_pos hnd] at h
            exact absurd h (by simp)
          · rw [if_neg hnd] at h
            have hnd0 : nd = 0 := by omega
            subst hnd0
            have hres : some (i, x) = some (pos, lb) :=
              simplifyLoop_res_of_one bs as (some (pos, lb)) (pos + 1) sd _ h
            have hx : x = lb := (by simpa using hres : i = pos ∧ x = lb).2
            exact List.mem_cons.mpr (Or.inl (by rw [hx, ← h2]))
        · rw [if_neg h2] at h
          by_cases h3 : la < lb
          · rw [if_pos h3] at h
            exact absurd h (by simp)
          · rw [if_neg h3] at h
            by_cases h4 : sd = 0
            · rw [if_pos h4] at h
              exact absurd h (by simp)
            · rw [if_neg h4] at h
              exact ih (la :: as) nd (pos + 1) (sd - 1) i x h

/-- A sorted subset matches with no flips (hence with any flip budget). -/
theorem matchRel_of_subset :
    ∀ (b a : List Nat) (k : Nat),
      List.Sorted (· < ·) a → List.Sorted (· < ·) b → tautFree b →
      (∀ l ∈ a, l ∈ b) → MatchRel a b k := by
  intro b
  induction b with
  | nil =>
    intro a k _ _ _ hsub
    cases a with
    | nil => trivial
    | cons la as => exact absurd (hsub la (List.mem_cons_self _ _)) (by simp)
  | cons lb bs ih =>
    intro a k hsa hsb htb hsub
    cases a with
    | nil => trivial
    | cons la as =>
      have hsa' := (List.sorted_cons.mp hsa).2
      have hsb' := (List.sorted_cons.mp hsb).2
      have hala := (List.sorted_cons.mp hsa).1
      have hblb := (List.sorted_cons.mp hsb).1
      simp only [MatchRel]
      by_cases h1 : la = lb
      · rw [if_pos h1]
        refine ih as k hsa' hsb' (tautFree_tail htb) ?_
        intro l hl
        rcases List.mem_cons.mp (hsub l (List.mem_cons_of_mem _ hl)) with h | h
        · exact absurd (h ▸ h1 ▸ hala l hl) (by omega)
        · exact h
      · rw [if_neg h1]
        by_cases h2 : la = negLit lb
        · exfalso
          rcases List.mem_cons.mp (hsub la (List.mem_cons_self _ _)) with h | h
          · exact h1 h
          · exact htb lb (List.mem_cons_self _ _) (h2 ▸ List.mem_cons_of_mem _ h)
        · rw [if_neg h2]
          by_cases h3 : la < lb
          · exfalso
            rcases List.mem_cons.mp (hsub la (List.mem_cons_self _ _)) with h | h
            · exact h1 h
            · exact absurd (hblb la h) (by omega)
          · rw [if_neg h3]
            refine ih (la :: as) k hsa hsb' (tautFree_tail htb) ?_
            intro l hl
            rcases List.mem_cons.mp (hsub l hl) with h | h
            · exact absurd (h ▸ sorted_head_le hsa hl) (by omega)
            · exact h

/-- A sorted embedding with exactly one polarity flip (the literal `xx` of `b`
matched against `¬xx ∈ a`) matches with flip budget 1. -/
theorem matchRel_flip :
    ∀ (b1 a b2 : List Nat) (xx : Nat),
      List.Sorted (· < ·) a → List.Sorted (· < ·) (b1 ++ xx :: b2) →
      tautFree a → tautFree (b1 ++ xx :: b2) →
      negLit xx ∈ a →
      (∀ l ∈ a, l = negLit xx ∨ l ∈ b1 ++ b2) →
      MatchRel a (b1 ++ xx :: b2) 1 := by
  intro b1
  induction b1 with
  | nil =>
    intro a b2 xx hsa hsb hta htb hflip hsub
    cases a with
    | nil => trivial
    | cons la as =>
      have hsa' := (List.sorted_cons.mp hsa).2
      have hsb' := (List.sorted_cons.mp hsb).2
      have hala := (List.sorted_cons.mp hsa).1
      have hblb := (List.sorted_cons.mp hsb).1
      have hlaflip : la = negLit xx := by
        have hle : la ≤ negLit xx := sorted_head_le hsa hflip
        rcases hsub la (List.mem_cons_self _ _) with h | h
        · exact h
        · simp only [List.nil_append] at h
          have := hblb la h
          rcases negLit_cases xx with hc | hc <;> omega
      simp only [List.nil_append, MatchRel]
      have hne : ¬ la = xx := by
        rw [hlaflip]; exact negLit_ne xx
      rw [if_neg hne, if_pos hlaflip]
      refine ⟨le_refl 1, ?_⟩
      refine matchRel_of_subset b2 as 0 hsa' hsb' (tautFree_tail htb) ?_
      intro l hl
      rcases hsub l (List.mem_cons_of_mem _ hl) with h | h
      · exact absurd (h ▸ hlaflip ▸ hala l hl) (by omega)
      · simpa using h
  | cons lb b1' ih =>
    intro a b2 xx hsa hsb hta htb hflip hsub
    cases a with
    | nil => trivial
    | cons la as =>
      have hsbC : List.Sorted (· < ·) (lb :: (b1' ++ xx :: b2)) := by simpa using hsb
      have htbC : tautFree (lb :: (b1' ++ xx :: b2)) := by
        intro l hl hneg
        refine htb l (by simpa using hl) (by simpa using hneg)
      have hsa' := (List.sorted_cons.mp hsa).2
      have hsb2 := (List.sorted_cons.mp hsbC).2
      have hblb := (List.sorted_cons.mp hsbC).1
      have hala := (List.sorted_cons.mp hsa).1
      have htb' : tautFree (b1' ++ xx :: b2) := tautFree_tail htbC
      simp only [List.cons_append, MatchRel]
      by_cases h1 : la = lb
      · rw [if_pos h1]
        have hflipne : negLit xx ≠ la := by
          intro h
          have hxnegla : xx = negLit la := by rw [← h, negLit_negLit]
          have hlbmem : lb ∈ lb :: (b1' ++ xx :: b2) := List.mem_cons_self _ _
          have hmem2 : negLit lb ∈ lb :: (b1' ++ xx :: b2) := by
            rw [← h1, ← hxnegla]
            simp
          exact htbC lb hlbmem hmem2
        have hflip' : negLit xx ∈ as := by
          rcases List.mem_cons.mp hflip with h | h
          · exact absurd h hflipne
          · exact h
        refine ih as b2 xx hsa' hsb2 (tautFree_tail hta) htb' hflip' ?_
        intro l hl
        rcases hsub l (List.mem_cons_of_mem _ hl) with h | h
        · exact Or.inl h
        · refine Or.inr ?_
          have hlb : l ≠ lb := by
            have := hala l hl
            omega
          have hC : l ∈ lb :: (b1' ++ b2) := by simpa using h
          rcases List.mem_cons.mp hC with h' | h'
          · exact absurd h' hlb
          · exact h'
      · rw [if_neg h1]
        by_cases h2 : la = negLit lb
        · exfalso
          rcases hsub la (List.mem_cons_self _ _) with h | h
          · -- la = ¬xx and la = ¬lb would force xx = lb, which is in the tail
            have hxlb : xx = lb := by
              have := congrArg negLit (h.symm.trans h2)
              rwa [negLit_negLit, negLit_negLit] at this
            have hmem : xx ∈ b1' ++ xx :: b2 := by simp
            have := hblb xx hmem
            omega
          · -- la would appear in b together with ¬la = lb
            have hC : la ∈ lb :: (b1' ++ b2) := by simpa using h
            have hlamem : la ∈ lb :: (b1' ++ xx :: b2) := by
              rcases List.mem_cons.mp hC with h' | h'
              · exact absurd h' h1
              · simp at h' ⊢
                tauto
            have hmem2 : negLit la ∈ lb :: (b1' ++ xx :: b2) := by
              rw [h2, negLit_negLit]
              exact List.mem_cons_self _ _
            exact htbC la hlamem hmem2
        · rw [if_neg h2]
          by_cases h3 : la < lb
          · exfalso
            rcases hsub la (List.mem_cons_self _ _) with h | h
            · -- the flip literal would sit strictly between lb and its negation
              have hxx : xx = negLit la := by rw [h, negLit_negLit]
              have hmem : xx ∈ b1' ++ xx :: b2 := by simp
              have := hblb xx hmem
              rcases negLit_cases la with hc | hc <;> omega
            · have hC : la ∈ lb :: (b1' ++ b2) := by simpa using h
              rcases List.mem_cons.mp hC with h' | h'
              · exact h1 h'
              · have hmem : la ∈ b1' ++ xx :: b2 := by
                  simp at h' ⊢
                  tauto
                have := hblb la hmem
                omega
          · rw [if_neg h3]
            refine ih (la :: as) b2 xx hsa hsb2 hta htb' hflip ?_
            intro l hl
            rcases hsub l hl with h | h
            · exact Or.inl h
            · refine Or.inr ?_
              have hlb : l ≠ lb := by
                have := sorted_head_le hsa hl
                omega
              have hC : l ∈ lb :: (b1' ++ b2) := by simpa using h
              rcases List.mem_cons.mp hC with h' | h'
              · exact absurd h' hlb
              · exact h'

/-- `MatchRel` implies the loop succeeds (with the exact slack `size_diff`
maintained by `SimplifyClause`). -/
theorem simplifyLoop_complete :
    ∀ (bsuf a : List Nat) (nd : Nat) (tr : Option (Nat × Nat)) (pos sd : Nat),
      MatchRel a bsuf (1 - nd) → nd ≤ 1 → sd + a.length = bsuf.length →
      ∃ res, simplifyLoop a bsuf nd tr pos sd = some res := by
  intro bsuf
  induction bsuf with
  | nil =>
    intro a nd tr pos sd hM hnd hsd
    cases a with
    | nil => exact ⟨_, rfl⟩
    | cons la as => exact absurd hM (by simp [MatchRel])
  | cons lb bs ih =>
    intro a nd tr pos sd hM hnd hsd
    cases a with
    | nil => exact ⟨_, rfl⟩
    | cons la as =>
      simp only [MatchRel] at hM
      simp only [simplifyLoop]
      by_cases h1 : la = lb
      · rw [if_pos h1]
        rw [if_pos h1] at hM
        exact ih as nd tr (pos + 1) sd hM hnd (by simp at hsd ⊢; omega)
      · rw [if_neg h1]
        rw [if_neg h1] at hM
        by_cases h2 : la = negLit lb
        · rw [if_pos h2]
          rw [if_pos h2] at hM
          have hnd0 : nd = 0 := by omega
          subst hnd0
          rw [if_neg (by omega : ¬ (0 + 1 > 1))]
          exact ih as 1 (some (pos, lb)) (pos + 1) sd (by simpa using hM.2)
            (by omega) (by simp at hsd ⊢; omega)
        · rw [if_neg h2]
          rw [if_neg h2] at hM
          by_cases h3 : la < lb
          · rw [if_pos h3] at hM
            exact absurd hM (by simp)
          · rw [if_neg h3]
            rw [if_neg h3] at hM
            have hlen := MatchRel_length bs (la :: as) (1 - nd) hM
            rw [if_neg (by simp at hsd hlen ⊢; omega : ¬ sd = 0)]
            exact ih (la :: as) nd tr (pos + 1) (sd - 1) hM hnd
              (by simp at hsd hlen ⊢; omega)

theorem mem_eraseIdx_of_ne {b : List Nat} {i x l : Nat}
    (hget : b[i]? = some x) (hl : l ∈ b) (hne : l ≠ x) : l ∈ b.eraseIdx i := by
  rw [List.mem_eraseIdx_iff_getElem?]
  obtain ⟨j, hj⟩ := List.mem_iff_getElem?.mp hl
  refine ⟨j, ?_, hj⟩
  intro hji
  subst hji
  rw [hget] at hj
  have hxl : x = l := by simpa using hj
  exact hne hxl.symm

/-- The claim's reading of the subsumption condition: `a ⊆ b` as sets after
possibly removing one literal from `b`. -/
def subsetAfterRemovingOne (a b : List Nat) : Prop :=
  (∀ l ∈ a, l ∈ b) ∨ ∃ i ∈ List.range b.length, ∀ l ∈ a, l ∈ b.eraseIdx i

instance subsetAfterRemovingOneDec (a b : List Nat) :
    Decidable (subsetAfterRemovingOne a b) :=
  decidable_of_iff ((∀ l ∈ a, l ∈ b) ∨
    ∃ i ∈ List.range b.length, ∀ l ∈ a, l ∈ b.eraseIdx i) Iff.rfl

/-- C2, counterexample: on `a = [2]` (literal `x₁`), `b = [3, 4]`
(`{¬x₁, x₂}`), `SimplifyClause` reports subsumed (self-subsuming resolution on
`x₁`), yet `a` is not a subset of `b` after removing any single literal of
`b`, so "subsumed iff `a ⊆ b` after possibly removing one literal from `b`"
fails. -/
theorem SimplifyClause_claim_cex :
    (SimplifyClause [2] [3, 4]).1 = true ∧ ¬ subsetAfterRemovingOne [2] [3, 4] := by
  decide

/-- C2, amended: for sorted, duplicate-free, tautology-free `a`, `b` with
`|a| ≤ |b|`, `SimplifyClause(a, b)` reports subsumed iff `a ⊆ b` as sets
after possibly negating one literal of `b` (equivalently: every literal of
`a` occurs in `b`, except at most one which occurs negated in `b`).  When it
reports subsumed with `opp = x`, then `x ∈ b`, `¬x ∈ a`, `b` has exactly `x`
removed in place and every literal of `a` is `¬x` or survives in the new `b`;
when it reports subsumed with `opp = ⊥`, `b` is unchanged. -/
theorem SimplifyClause_contract (a b : List Nat)
    (hsa : List.Sorted (· < ·) a) (hsb : List.Sorted (· < ·) b)
    (hta : tautFree a) (htb : tautFree b)
    (hlen : a.length ≤ b.length) :
    (((SimplifyClause a b).1 = true) ↔
      ((∀ l ∈ a, l ∈ b) ∨
        ∃ i xx, b[i]? = some xx ∧ negLit xx ∈ a ∧
          ∀ l ∈ a, l = negLit xx ∨ l ∈ b.eraseIdx i)) ∧
    ((SimplifyClause a b).2.2 = none → (SimplifyClause a b).2.1 = b) ∧
    (∀ x, (SimplifyClause a b).2.2 = some x →
        x ∈ b ∧ negLit x ∈ a ∧
        ∃ i, b[i]? = some x ∧ (SimplifyClause a b).2.1 = b.eraseIdx i ∧
          ∀ l ∈ a, l = negLit x ∨ l ∈ b.eraseIdx i) := by
  have hlen' : ¬ (b.length < a.length) := by omega
  have hSC : SimplifyClause a b
      = match simplifyLoop a b 0 none 0 (b.length - a.length) with
        | none => (false, b, none)
        | some none => (true, b, none)
        | some (some (i, x)) => (true, b.eraseIdx i, some x) := by
    unfold SimplifyClause
    rw [if_neg hlen']
  rcases hrun : simplifyLoop a b 0 none 0 (b.length - a.length) with _ | (_ | ⟨i, x⟩)
  all_goals rw [hrun] at hSC
  · -- loop failed: not subsumed; the semantic condition must fail as well
    rw [hSC]
    refine ⟨?_, fun _ => rfl, fun x hx => by simp at hx⟩
    simp only [Bool.false_eq_true, false_iff]
    rintro (hsub | ⟨i, xx, hget, hflip, hsub⟩)
    · have hM : MatchRel a b (1 - 0) := matchRel_of_subset b a 1 hsa hsb htb hsub
      obtain ⟨res, hres⟩ := simplifyLoop_complete b a 0 none 0
        (b.length - a.length) hM (by omega) (by omega)
      rw [hrun] at hres
      exact Option.noConfusion hres
    · obtain ⟨hlt, heq⟩ := List.getElem?_eq_some.mp hget
      have hsplit : b = b.take i ++ xx :: b.drop (i + 1) := by
        conv_lhs => rw [← List.take_append_drop i b]
        rw [List.drop_eq_getElem_cons hlt, heq]
      have herase : b.eraseIdx i = b.take i ++ b.drop (i + 1) :=
        List.eraseIdx_eq_take_drop_succ b i
      have hM : MatchRel a (b.take i ++ xx :: b.drop (i + 1)) 1 := by
        refine matchRel_flip (b.take i) a (b.drop (i + 1)) xx hsa
          (hsplit ▸ hsb) hta (hsplit ▸ htb) hflip ?_
        intro l hl
        rcases hsub l hl with h | h
        · exact Or.inl h
        · exact Or.inr (herase ▸ h)
      rw [← hsplit] at hM
      obtain ⟨res, hres⟩ := simplifyLoop_complete b a 0 none 0
        (b.length - a.length) (by simpa using hM) (by omega) (by omega)
      rw [hrun] at hres
      exact Option.noConfusion hres
  · -- subsumed with opp = ⊥: plain subset
    rw [hSC]
    refine ⟨?_, fun _ => rfl, fun x hx => by simp at hx⟩
    simp only [true_iff]
    refine Or.inl ?_
    intro l hl
    rcases simplifyLoop_mem_sound b a 0 none 0 (b.length - a.length) none hrun l hl with
      h | ⟨i, x, hres, -, -⟩
    · exact h
    · exact Option.noConfusion hres
  · -- subsumed with opp = x
    have hget : b[i]? = some x :=
      simplifyLoop_toRemove_ok a b 0 none 0 (b.length - a.length) b rfl
        (by intro i x h; simp at h) (i, x) hrun
    have hflip : negLit x ∈ a :=
      simplifyLoop_flip_origin b a 0 0 (b.length - a.length) i x hrun
    have hsub : ∀ l ∈ a, l = negLit x ∨ l ∈ b.eraseIdx i := by
      intro l hl
      rcases simplifyLoop_mem_sound b a 0 none 0 (b.length - a.length)
        (some (i, x)) hrun l hl with h | ⟨i', x', hres, hlx, -⟩
      · by_cases hlx : l = negLit x
        · exact Or.inl hlx
        · refine Or.inr (mem_eraseIdx_of_ne hget h ?_)
          intro hleq
          exact hta l hl (by rw [hleq]; exact hflip)
      · simp only [Option.some.injEq, Prod.mk.injEq] at hres
        exact Or.inl (hlx.trans (congrArg negLit hres.2).symm)
    have hxb : x ∈ b := by
      obtain ⟨hlt, heq⟩ := List.getElem?_eq_some.mp hget
      exact heq ▸ List.getElem_mem hlt
    rw [hSC]
    refine ⟨?_, fun h => by simp at h, ?_⟩
    · simp only [true_iff]
      exact Or.inr ⟨i, x, hget, hflip, hsub⟩
    · intro x' hx'
      have hxx : x' = x := by simpa using hx'.symm
      subst hxx
      exact ⟨hxb, hflip, i, hget, rfl, hsub⟩

/-- Witness for `SimplifyClause_contract` at `a = [0, 4]`, `b = [1, 2, 4]`. -/
theorem SimplifyClause_contract_witness :
    (((SimplifyClause [0, 4] [1, 2, 4]).1 = true) ↔
      ((∀ l ∈ ([0, 4] : List Nat), l ∈ ([1, 2, 4] : List Nat)) ∨
        ∃ i xx, ([1, 2, 4] : List Nat)[i]? = some xx ∧ negLit xx ∈ ([0, 4] : List Nat) ∧
          ∀ l ∈ ([0, 4] : List Nat), l = negLit xx ∨ l ∈ ([1, 2, 4] : List Nat).eraseIdx i)) ∧
    ((SimplifyClause [0, 4] [1, 2, 4]).2.2 = none →
      (SimplifyClause [0, 4] [1, 2, 4]).2.1 = [1, 2, 4]) ∧
    (∀ x, (SimplifyClause [0, 4] [1, 2, 4]).2.2 = some x →
        x ∈ ([1, 2, 4] : List Nat) ∧ negLit x ∈ ([0, 4] : List Nat) ∧
        ∃ i, ([1, 2, 4] : List Nat)[i]? = some x ∧
          (SimplifyClause [0, 4] [1, 2, 4]).2.1 = ([1, 2, 4] : List Nat).eraseIdx i ∧
          ∀ l ∈ ([0, 4] : List Nat), l = negLit x ∨ l ∈ ([1, 2, 4] : List Nat).eraseIdx i) :=
  SimplifyClause_contract [0, 4] [1, 2, 4] (by decide) (by decide) (by decide)
    (by decide) (by decide)

/-! ### `SatPostsolver::Postsolve` (simplification.cc, lines 70-97)

The postsolver keeps an append-only log of records `(x_i, C_i)` (stored in the
source as `associated_literal_` plus the flattened `clauses_start_` /
`clauses_literals_`; we keep the same sequence of records as a list).
`Postsolve` first assigns every unassigned variable to true, then walks the
records in reverse append order; a record whose clause already has a true
literal is skipped, otherwise its associated literal is forced to true
(unassign, then assign from the true literal — a plain update on the now
total assignment).  A partial assignment is `Nat → Option Bool` (variable to
value, `none` = unassigned); after step one all variables are assigned, so
the replay works on total assignments `Nat → Bool`. -/

/-- Value of a literal index under a total assignment. -/
def litValB (α : Nat → Bool) (l : Nat) : Bool :=
  if l % 2 = 0 then α (l / 2) else !α (l / 2)

/-- `assignment->LiteralIsTrue` lifted over a clause: some literal is true. -/
def clauseVal (α : Nat → Bool) (c : List Nat) : Bool := c.any (litValB α)

/-- `UnassignLiteral` followed by `AssignFromTrueLiteral x`: the variable of
`x` now makes `x` true. -/
def setLitTrue (x : Nat) (α : Nat → Bool) : Nat → Bool :=
  fun v => if v = x / 2 then decide (x % 2 = 0) else α v

/-- One record of the reverse walk: skip if the clause is satisfied,
otherwise force the associated literal. -/
def stepEntry (e : Nat × List Nat) (α : Nat → Bool) : Nat → Bool :=
  if clauseVal α e.2 then α else setLitTrue e.1 α

/-- Walk the log in reverse append order (the last record is processed
first). -/
def postReplay (L : List (Nat × List Nat)) (α : Nat → Bool) : Nat → Bool :=
  L.foldr stepEntry α

/-- Step one of `Postsolve`: every unassigned variable is set to true. -/
def totalize (A : Nat → Option Bool) : Nat → Bool := fun v => (A v).getD true

/-- `SatPostsolver::Postsolve` on an assignment `A`. -/
def Postsolve (L : List (Nat × List Nat)) (A : Nat → Option Bool) : Nat → Bool :=
  postReplay L (totalize A)

theorem litValB_setLitTrue_self (x : Nat) (α : Nat → Bool) :
    litValB (setLitTrue x α) x = true := by
  unfold litValB setLitTrue
  by_cases h : x % 2 = 0 <;> simp [h]

theorem setLitTrue_other {x : Nat} (α : Nat → Bool) {l : Nat}
    (h : litVar l ≠ litVar x) : litValB (setLitTrue x α) l = litValB α l := by
  unfold litValB setLitTrue litVar at *
  split_ifs with h1 h2 <;> simp [h] <;> omega

theorem clauseVal_of_mem {α : Nat → Bool} {c : List Nat} {l : Nat}
    (hl : l ∈ c) (hv : litValB α l = true) : clauseVal α c = true :=
  List.any_eq_true.mpr ⟨l, hl, hv⟩

theorem postReplay_append (L1 L2 : List (Nat × List Nat)) (α : Nat → Bool) :
    postReplay (L1 ++ L2) α = postReplay L1 (postReplay L2 α) := by
  unfold postReplay
  rw [List.foldr_append]

/-- C7, counterexample to the final conjunct as stated: with the log
`[(x₀, {x₀}), (¬x₀, {¬x₀})]` (both entries satisfy `x_i ∈ C_i`), after
`Postsolve` the clause of the later entry, `{¬x₀}`, is falsified: the walk
first forces `¬x₀`, then the earlier entry forces `x₀` back.  So "after
Postsolve every logged clause is satisfied" fails for an arbitrary log. -/
theorem Postsolve_claim_cex :
    clauseVal (Postsolve [(0, [0]), (1, [1])] (fun _ => none)) [1] = false ∧
    ((1 : Nat), [1]) ∈ ([(0, [0]), (1, [1])] : List (Nat × List Nat)) ∧
    (1 : Nat) ∈ [1] ∧ (0 : Nat) ∈ [0] := by
  constructor
  · rfl
  · exact ⟨by simp, by simp, by simp⟩

/-- C7, amended: `Postsolve` first sets every variable unassigned in `A` to
true (keeping assigned values), then walks the log in reverse append order;
at each record, if some literal of `C_i` is already true the assignment is
left unchanged, otherwise `x_i` is forced to true; consequently the result is
a total assignment, and each logged clause `C_i` with `x_i ∈ C_i` is
satisfied at the moment its record has just been processed (not necessarily
at the end, as the counterexample shows). -/
theorem Postsolve_replay_rule (L : List (Nat × List Nat)) (A : Nat → Option Bool) :
    ((∀ v, A v = none → totalize A v = true) ∧
      (∀ v bv, A v = some bv → totalize A v = bv)) ∧
    Postsolve L A = postReplay L (totalize A) ∧
    (∀ i x c, L[i]? = some (x, c) →
      postReplay (L.drop i) (totalize A)
          = stepEntry (x, c) (postReplay (L.drop (i + 1)) (totalize A)) ∧
      (clauseVal (postReplay (L.drop (i + 1)) (totalize A)) c = true →
        postReplay (L.drop i) (totalize A)
          = postReplay (L.drop (i + 1)) (totalize A)) ∧
      (clauseVal (postReplay (L.drop (i + 1)) (totalize A)) c = false →
        postReplay (L.drop i) (totalize A)
          = setLitTrue x (postReplay (L.drop (i + 1)) (totalize A))) ∧
      (x ∈ c → clauseVal (postReplay (L.drop i) (totalize A)) c = true)) := by
  refine ⟨⟨?_, ?_⟩, rfl, ?_⟩
  · intro v hv; simp [totalize, hv]
  · intro v bv hv; simp [totalize, hv]
  · intro i x c hget
    obtain ⟨hlt, heq⟩ := List.getElem?_eq_some.mp hget
    have hdrop : L.drop i = (x, c) :: L.drop (i + 1) := by
      rw [List.drop_eq_getElem_cons hlt, heq]
    have hstep : postReplay (L.drop i) (totalize A)
        = stepEntry (x, c) (postReplay (L.drop (i + 1)) (totalize A)) := by
      rw [hdrop]; rfl
    refine ⟨hstep, ?_, ?_, ?_⟩
    · intro htrue
      rw [hstep]
      unfold stepEntry
      rw [if_pos htrue]
    · intro hfalse
      rw [hstep]
      unfold stepEntry
      rw [if_neg (by simp [hfalse])]
    · intro hxc
      rw [hstep]
      unfold stepEntry
      by_cases hcv : clauseVal (postReplay (L.drop (i + 1)) (totalize A)) c = true
      · rw [if_pos hcv]; exact hcv
      · rw [if_neg hcv]
        exact clauseVal_of_mem hxc (litValB_setLitTrue_self x _)

/-- Witness for `Postsolve_replay_rule`: with the single record
`(x₀, {x₀, x₁})`, the record's clause is satisfied right after it is
processed. -/
theorem Postsolve_replay_rule_witness :
    clauseVal (postReplay (([(0, [0, 2])] : List (Nat × List Nat)).drop 0)
      (totalize (fun _ => none))) [0, 2] = true :=
  ((Postsolve_replay_rule [(0, [0, 2])] (fun _ => none)).2.2 0 0 [0, 2]
    rfl).2.2.2 (by simp)

/-! ### Presolver round trip (claim C1)

We model the presolver's clause database as a list of clauses together with
the postsolve log, and its destructive operations as a step relation whose
constructors carry exactly the facts the corresponding source code
establishes at each call site (`SatPresolver::ProcessClauseToSimplifyOthers`,
`SatPresolver::CrossProduct`, `SatPresolver::AddClauseInternal`,
`SatPresolver::RemoveAndRegisterForPostsolve`, and the probing rewrite of
`ProbeAndFindEquivalentLiteral`). -/

/-- The assignment satisfies every clause of the formula. -/
def satF (α : Nat → Bool) (F : List (List Nat)) : Prop :=
  ∀ c ∈ F, clauseVal α c = true

instance satFDec (α : Nat → Bool) (F : List (List Nat)) : Decidable (satF α F) :=
  decidable_of_iff (∀ c ∈ F, clauseVal α c = true) Iff.rfl

theorem litValB_negLit (α : Nat → Bool) (l : Nat) :
    litValB α (negLit l) = !litValB α l := by
  unfold litValB negLit
  rcases Nat.mod_two_eq_zero_or_one l with h | h
  · have h1 : (l + 1) % 2 = 1 := by omega
    have h2 : (l + 1) / 2 = l / 2 := by omega
    simp [h, h1, h2]
  · have h1 : (l - 1) % 2 = 0 := by omega
    have h2 : (l - 1) / 2 = l / 2 := by omega
    simp [h, h1, h2]

theorem clauseVal_subset {α : Nat → Bool} {c d : List Nat}
    (hsub : ∀ l ∈ c, l ∈ d) (hc : clauseVal α c = true) : clauseVal α d = true := by
  obtain ⟨l, hl, hv⟩ := List.any_eq_true.mp hc
  exact clauseVal_of_mem (hsub l hl) hv

theorem clauseVal_exists {α : Nat → Bool} {c : List Nat}
    (hc : clauseVal α c = true) : ∃ l ∈ c, litValB α l = true :=
  List.any_eq_true.mp hc

/-- Entailment behind `AddClauseInternal`-ed resolvents: the resolvent of two
satisfied clauses is satisfied. -/
theorem resolvent_entails {C1 C2 R : List Nat} {y : Nat}
    (hR : ∀ l, l ∈ R ↔ ((l ∈ C1 ∧ l ≠ y) ∨ (l ∈ C2 ∧ l ≠ negLit y)))
    (γ : Nat → Bool) (h1 : clauseVal γ C1 = true) (h2 : clauseVal γ C2 = true) :
    clauseVal γ R = true := by
  by_cases hy : litValB γ y = true
  · obtain ⟨l, hl, hv⟩ := clauseVal_exists h2
    have hlny : l ≠ negLit y := by
      intro h
      rw [h, litValB_negLit, hy] at hv
      simp at hv
    exact clauseVal_of_mem ((hR l).mpr (Or.inr ⟨hl, hlny⟩)) hv
  · obtain ⟨l, hl, hv⟩ := clauseVal_exists h1
    have hlny : l ≠ y := by
      intro h
      rw [h] at hv
      exact hy hv
    exact clauseVal_of_mem ((hR l).mpr (Or.inl ⟨hl, hlny⟩)) hv

/-- Entailment behind self-subsuming resolution: removing the literal `x`
from `D` is sound given a clause `C` with `¬x ∈ C` whose other literals all
survive in the strengthened clause. -/
theorem strengthen_entails {C D1 D2 : List Nat} {x : Nat}
    (hC : ∀ l ∈ C, l = negLit x ∨ l ∈ D1 ++ D2)
    (γ : Nat → Bool) (hc : clauseVal γ C = true)
    (hd : clauseVal γ (D1 ++ x :: D2) = true) :
    clauseVal γ (D1 ++ D2) = true := by
  by_cases hx : litValB γ x = true
  · obtain ⟨l, hl, hv⟩ := clauseVal_exists hc
    rcases hC l hl with h | h
    · rw [h, litValB_negLit, hx] at hv
      simp at hv
    · exact clauseVal_of_mem h hv
  · obtain ⟨l, hl, hv⟩ := clauseVal_exists hd
    have hlx : l ≠ x := by
      intro h
      rw [h] at hv
      exact hx hv
    have hl' : l ∈ D1 ++ D2 := by
      rcases List.mem_append.mp hl with h | h
      · exact List.mem_append.mpr (Or.inl h)
      · rcases List.mem_cons.mp h with h' | h'
        · exact absurd h' hlx
        · exact List.mem_append.mpr (Or.inr h')
    exact clauseVal_of_mem hl' hv

/-- Soundness of a logged removal (blocked clause or variable elimination):
if the remaining clauses are satisfied, then replaying the record `(x, D)`
restores satisfaction of `D` while keeping every remaining clause satisfied,
thanks to the witnessing condition the source establishes (every remaining
clause with `¬x` either resolves tautologically with `D` or its resolvent
with `D` is itself a remaining clause). -/
theorem removeWitness_sound {L1 L2 : List (List Nat)} {D : List Nat} {x : Nat}
    (hx : x ∈ D)
    (hw : ∀ E ∈ L1 ++ L2, negLit x ∈ E →
      (∃ z ∈ D, z ≠ x ∧ negLit z ∈ E) ∨
      (∃ R ∈ L1 ++ L2, ∀ l ∈ R, (l ∈ D ∧ l ≠ x) ∨ (l ∈ E ∧ l ≠ negLit x)))
    (α : Nat → Bool) (hα : satF α (L1 ++ L2)) :
    satF (stepEntry (x, D) α) (L1 ++ D :: L2) := by
  unfold stepEntry
  by_cases hD : clauseVal α D = true
  · rw [if_pos hD]
    intro c hc
    rcases List.mem_append.mp hc with h | h
    · exact hα c (List.mem_append.mpr (Or.inl h))
    · rcases List.mem_cons.mp h with h' | h'
      · exact h' ▸ hD
      · exact hα c (List.mem_append.mpr (Or.inr h'))
  · rw [if_neg hD]
    intro c hc
    have hmain : ∀ E ∈ L1 ++ L2, clauseVal (setLitTrue x α) E = true := by
      intro E hE
      obtain ⟨l, hl, hv⟩ := clauseVal_exists (hα E hE)
      by_cases hvar : litVar l = litVar x
      · rcases eq_or_ne l x with rfl | hlx
        · exact clauseVal_of_mem hl (litValB_setLitTrue_self l α)
        · have hlnx : l = negLit x := eq_negLit_of_var_eq hvar.symm (fun h => hlx h.symm)
          rcases hw E hE (hlnx ▸ hl) with ⟨z, hz, hznx, hnz⟩ | ⟨R, hR, hRmem⟩
          · -- the blocking pair: ¬z is true because D is falsified
            have hzfalse : litValB α z = false := by
              by_contra h
              exact hD (clauseVal_of_mem hz (by
                cases hzv : litValB α z
                · exact absurd hzv h
                · rfl))
            by_cases hzvar : litVar z = litVar x
            · have hznegx : z = negLit x := eq_negLit_of_var_eq hzvar.symm
                (fun h => hznx h.symm)
              have hnegz : negLit z = x := by rw [hznegx, negLit_negLit]
              exact clauseVal_of_mem (hnegz ▸ hnz) (litValB_setLitTrue_self x α)
            · have hval : litValB (setLitTrue x α) (negLit z) = true := by
                rw [setLitTrue_other α (by rwa [litVar_negLit]), litValB_negLit, hzfalse]
                rfl
              exact clauseVal_of_mem hnz hval
          · -- the resolvent is a remaining clause; its true literal is not in D
            obtain ⟨l', hl', hv'⟩ := clauseVal_exists (hα R hR)
            rcases hRmem l' hl' with ⟨hmemD, -⟩ | ⟨hmemE, hne⟩
            · exfalso
              exact hD (clauseVal_of_mem hmemD hv')
            · by_cases hvar' : litVar l' = litVar x
              · have : l' = x := by
                  rcases eq_or_ne l' x with h | h
                  · exact h
                  · exact absurd (eq_negLit_of_var_eq hvar'.symm (fun hh => h hh.symm)) hne
                exact clauseVal_of_mem (this ▸ hmemE) (this ▸ litValB_setLitTrue_self x α)
              · have : litValB (setLitTrue x α) l' = litValB α l' :=
                  setLitTrue_other α hvar'
                exact clauseVal_of_mem hmemE (this.trans hv')
      · exact clauseVal_of_mem hl ((setLitTrue_other α hvar).trans hv)
    rcases List.mem_append.mp hc with h | h
    · exact hmain c (List.mem_append.mpr (Or.inl h))
    · rcases List.mem_cons.mp h with h' | h'
      · rw [h']
        exact clauseVal_of_mem hx (litValB_setLitTrue_self x α)
      · exact hmain c (List.mem_append.mpr (Or.inr h'))

/-- Postsolve records appended by `ProbeAndFindEquivalentLiteral`
(simplification.cc, lines 759-777): for each literal index `i` below `2N`
that is not its own representative, the record `(i, {i, ¬rep(i)})` is
appended, in increasing index order. -/
def substEntries (ρ : Nat → Nat) (n : Nat) : List (Nat × List Nat) :=
  (List.range n).filterMap
    (fun i => if ρ i = i then none else some (i, [i, negLit (ρ i)]))

theorem substEntries_succ (ρ : Nat → Nat) (n : Nat) :
    substEntries ρ (n + 1) = substEntries ρ n
      ++ (if ρ n = n then [] else [(n, [n, negLit (ρ n)])]) := by
  unfold substEntries
  rw [List.range_succ, List.filterMap_append]
  congr 1
  by_cases h : ρ n = n <;> simp [List.filterMap, h]

theorem substEntries_mem {ρ : Nat → Nat} {n : Nat} {e : Nat × List Nat}
    (he : e ∈ substEntries ρ n) :
    e.1 < n ∧ ρ e.1 ≠ e.1 ∧ e.2 = [e.1, negLit (ρ e.1)] := by
  unfold substEntries at he
  obtain ⟨i, hi, hfe⟩ := List.mem_filterMap.mp he
  by_cases h : ρ i = i
  · rw [if_pos h] at hfe
    exact absurd hfe (by simp)
  · rw [if_neg h] at hfe
    obtain rfl := Option.some.inj hfe
    exact ⟨List.mem_range.mp hi, h, rfl⟩

theorem postReplay_untouched :
    ∀ (L : List (Nat × List Nat)) (α : Nat → Bool) (v : Nat),
      (∀ e ∈ L, litVar e.1 ≠ v) → postReplay L α v = α v := by
  intro L
  induction L with
  | nil => intro α v _; rfl
  | cons e rest ih =>
    intro α v hv
    show stepEntry e (postReplay rest α) v = α v
    unfold stepEntry
    have hrest := ih α v (fun e' he' => hv e' (List.mem_cons_of_mem _ he'))
    by_cases hcv : clauseVal (postReplay rest α) e.2 = true
    · rw [if_pos hcv]; exact hrest
    · rw [if_neg hcv]
      unfold setLitTrue
      rw [if_neg (by
        intro h
        exact hv e (List.mem_cons_self _ _) (by rw [litVar, ← h]))]
      exact hrest

theorem litValB_congr {α α' : Nat → Bool} {l : Nat}
    (h : α (litVar l) = α' (litVar l)) : litValB α l = litValB α' l := by
  unfold litValB
  unfold litVar at h
  split_ifs <;> rw [h]

/-- Evaluating the two records of one substituted variable: afterwards the
variable `m` agrees with the representative literal `r`, and no other
variable changes. -/
theorem subst_pair_eval (m r : Nat) (hvr : litVar r ≠ m) (α : Nat → Bool) :
    (∀ v, v ≠ m →
      stepEntry (2 * m, [2 * m, negLit r])
        (stepEntry (2 * m + 1, [2 * m + 1, r]) α) v = α v) ∧
    litValB (stepEntry (2 * m, [2 * m, negLit r])
        (stepEntry (2 * m + 1, [2 * m + 1, r]) α)) (2 * m)
      = litValB α r := by
  have hm0 : (2 * m) % 2 = 0 := by omega
  have hm0' : (2 * m) / 2 = m := by omega
  have hm1 : (2 * m + 1) % 2 = 1 := by omega
  have hm1' : (2 * m + 1) / 2 = m := by omega
  set γ := stepEntry (2 * m + 1, [2 * m + 1, r]) α with hγ
  have hγother : ∀ v, v ≠ m → γ v = α v := by
    intro v hv
    rw [hγ]
    unfold stepEntry
    by_cases h1 : clauseVal α [2 * m + 1, r] = true
    · rw [if_pos h1]
    · rw [if_neg h1]
      unfold setLitTrue
      rw [if_neg (fun h => hv (h.trans hm1'))]
  have hγm : γ m = (if (!α m || litValB α r) then α m else false) := by
    rw [hγ]
    unfold stepEntry
    have hcv : clauseVal α [2 * m + 1, r] = (!α m || litValB α r) := by
      unfold clauseVal
      simp only [List.any_cons, List.any_nil, Bool.or_false]
      congr 1
      unfold litValB
      rw [if_neg (by omega), hm1']
    rw [hcv]
    split_ifs with h1
    · rfl
    · unfold setLitTrue
      rw [if_pos hm1'.symm, hm1]
      simp
  have hγr : litValB γ r = litValB α r :=
    litValB_congr (hγother (litVar r) hvr)
  set β := stepEntry (2 * m, [2 * m, negLit r]) γ with hβ
  have hβother : ∀ v, v ≠ m → β v = γ v := by
    intro v hv
    rw [hβ]
    unfold stepEntry
    by_cases h1 : clauseVal γ [2 * m, negLit r] = true
    · rw [if_pos h1]
    · rw [if_neg h1]
      unfold setLitTrue
      rw [if_neg (fun h => hv (h.trans hm0'))]
  have hβm : β m = (if (γ m || !litValB α r) then γ m else true) := by
    rw [hβ]
    unfold stepEntry
    have hcv : clauseVal γ [2 * m, negLit r] = (γ m || !litValB α r) := by
      unfold clauseVal
      simp only [List.any_cons, List.any_nil, Bool.or_false]
      congr 1
      · unfold litValB
        rw [if_pos hm0, hm0']
      · rw [litValB_negLit, hγr]
    rw [hcv]
    split_ifs with h1
    · rfl
    · unfold setLitTrue
      rw [if_pos hm0'.symm, hm0]
      simp
  constructor
  · intro v hv
    rw [hβother v hv, hγother v hv]
  · have hfinal : litValB β (2 * m) = β m := by
      unfold litValB
      rw [if_pos hm0, hm0']
    rw [hfinal, hβm, hγm]
    cases hr : litValB α r <;> cases hA : α m <;> simp

/-- Replaying the substitution records computes, on every variable below the
range bound, the value of the representative. -/
theorem substEntries_replay (ρ : Nat → Nat)
    (hneg : ∀ l, ρ (negLit l) = negLit (ρ l))
    (hidem : ∀ l, ρ (ρ l) = ρ l) :
    ∀ (m : Nat) (α : Nat → Bool) (l : Nat),
      litValB (postReplay (substEntries ρ (2 * m)) α) l
        = if litVar l < m then litValB α (ρ l) else litValB α l := by
  intro m
  induction m with
  | zero =>
    intro α l
    rw [if_neg (by omega)]
    rfl
  | succ m ih =>
    intro α l
    have hsplit : substEntries ρ (2 * (m + 1))
        = substEntries ρ (2 * m)
          ++ ((if ρ (2 * m) = 2 * m then [] else
                [(2 * m, [2 * m, negLit (ρ (2 * m))])])
            ++ (if ρ (2 * m + 1) = 2 * m + 1 then [] else
                [(2 * m + 1, [2 * m + 1, negLit (ρ (2 * m + 1))])])) := by
      have h1 : 2 * (m + 1) = (2 * m + 1) + 1 := by omega
      rw [h1, substEntries_succ, substEntries_succ, List.append_assoc]
    rw [hsplit, postReplay_append]
    have hodd : negLit (2 * m) = 2 * m + 1 := by
      unfold negLit
      rw [if_pos (by omega)]
    have hodd2 : negLit (2 * m + 1) = 2 * m := by
      unfold negLit
      rw [if_neg (by omega)]
      omega
    -- the pair for variable m: either both records absent or both present
    have hfix : ρ (2 * m) = 2 * m ↔ ρ (2 * m + 1) = 2 * m + 1 := by
      constructor
      · intro h
        rw [← hodd, hneg, h, hodd]
      · intro h
        have h1 := hneg (2 * m)
        rw [hodd, h] at h1
        have h2 := congrArg negLit h1
        rw [negLit_negLit, hodd2] at h2
        exact h2.symm
    by_cases hf : ρ (2 * m) = 2 * m
    · -- fixed variable: no records; values of its literals are unchanged
      rw [if_pos hf, if_pos (hfix.mp hf)]
      simp only [List.nil_append]
      rw [show postReplay ([] : List (Nat × List Nat)) α = α from rfl]
      rw [ih α l]
      rcases Nat.lt_trichotomy (litVar l) m with h | h | h
      · rw [if_pos h, if_pos (by omega)]
      · rw [if_neg (by omega), if_pos (by omega)]
        -- l is one of the two fixed literals of variable m
        have hl : l = 2 * m ∨ l = 2 * m + 1 := by
          unfold litVar at h
          omega
        rcases hl with rfl | rfl
        · rw [hf]
        · rw [hfix.mp hf]
      · rw [if_neg (by omega), if_neg (by omega)]
    · -- substituted variable: both records present
      rw [if_neg hf, if_neg (fun h => hf (hfix.mpr h))]
      have hρodd : ρ (2 * m + 1) = negLit (ρ (2 * m)) := by
        rw [← hodd, hneg]
      have hrvar : litVar (ρ (2 * m)) ≠ m := by
        intro hv
        have hcase : ρ (2 * m) = 2 * m ∨ ρ (2 * m) = 2 * m + 1 := by
          unfold litVar at hv
          omega
        rcases hcase with h | h
        · exact hf h
        · have h2 : ρ (ρ (2 * m)) = ρ (2 * m) := hidem _
          rw [h] at h2
          exact hf (hfix.mpr h2)
      have hpair : postReplay ([(2 * m, [2 * m, negLit (ρ (2 * m))])]
            ++ [(2 * m + 1, [2 * m + 1, negLit (ρ (2 * m + 1))])]) α
          = stepEntry (2 * m, [2 * m, negLit (ρ (2 * m))])
              (stepEntry (2 * m + 1, [2 * m + 1, ρ (2 * m)]) α) := by
        rw [hρodd, negLit_negLit]
        rfl
      rw [hpair]
      obtain ⟨hother, hval⟩ := subst_pair_eval m (ρ (2 * m)) hrvar α
      set α' := stepEntry (2 * m, [2 * m, negLit (ρ (2 * m))])
        (stepEntry (2 * m + 1, [2 * m + 1, ρ (2 * m)]) α) with hα'
      rw [ih α' l]
      rcases Nat.lt_trichotomy (litVar l) m with h | h | h
      · rw [if_pos h, if_pos (by omega)]
        -- ρ l is a fixpoint whose variable is not m, so α' agrees with α on it
        refine litValB_congr ?_
        refine hother (litVar (ρ l)) ?_
        intro hvm
        have hcase : ρ l = 2 * m ∨ ρ l = 2 * m + 1 := by
          unfold litVar at hvm
          omega
        rcases hcase with hh | hh
        · have h2 := hidem l
          rw [hh] at h2
          exact hf h2
        · have h2 := hidem l
          rw [hh] at h2
          exact hf (hfix.mpr h2)
      · rw [if_neg (by omega), if_pos (by omega)]
        have hl : l = 2 * m ∨ l = 2 * m + 1 := by
          unfold litVar at h
          omega
        have hα'm : α' m = litValB α (ρ (2 * m)) := by
          rw [← hval]
          unfold litValB
          rw [if_pos (by omega), show (2 * m) / 2 = m from by omega]
        rcases hl with rfl | rfl
        · exact hval
        · rw [hρodd, litValB_negLit]
          have hL : litValB α' (2 * m + 1) = !(α' m) := by
            unfold litValB
            rw [if_neg (by omega), show (2 * m + 1) / 2 = m from by omega]
          rw [hL, hα'm]
      · rw [if_neg (by omega), if_neg (by omega)]
        refine litValB_congr ?_
        refine hother (litVar l) ?_
        omega

theorem mem_append_cons_of_mem_append {c D : List Nat} {L1 L2 : List (List Nat)}
    (h : c ∈ L1 ++ L2) : c ∈ L1 ++ D :: L2 := by
  rcases List.mem_append.mp h with h' | h'
  · exact List.mem_append.mpr (Or.inl h')
  · exact List.mem_append.mpr (Or.inr (List.mem_cons_of_mem _ h'))

theorem satF_append_cons {α : Nat → Bool} {L1 L2 : List (List Nat)} {D : List Nat}
    (h : satF α (L1 ++ L2)) (hD : clauseVal α D = true) :
    satF α (L1 ++ D :: L2) := by
  intro c hc
  rcases List.mem_append.mp hc with h' | h'
  · exact h c (List.mem_append.mpr (Or.inl h'))
  · rcases List.mem_cons.mp h' with h'' | h''
    · rw [h'']; exact hD
    · exact h c (List.mem_append.mpr (Or.inr h''))

theorem satF_of_append_cons {α : Nat → Bool} {L1 L2 : List (List Nat)} {D : List Nat}
    (h : satF α (L1 ++ D :: L2)) : satF α (L1 ++ L2) :=
  fun c hc => h c (mem_append_cons_of_mem_append hc)

/-- One destructive presolver operation on the pair (clause database,
postsolve log).  Each constructor carries the facts the corresponding call
site of `simplification.cc` establishes:

* `subsume` — `ProcessClauseToSimplifyOthers`, `opposite_literal = -1`
  branch: the processed clause `C` is a live clause whose literal set is
  contained in `D`; `Remove(ci)` deletes `D` with no postsolve record.
* `strengthen` — the `opposite_literal = x` branch: `SimplifyClause` proved
  that every literal of the processed live clause `C` is `¬x` or survives in
  the strengthened `D`; `D` loses its occurrence of `x`, no record.
* `addResolvent` — `CrossProduct`'s second loop adding
  `ComputeResolvant(y, C1, C2)` via `AddClauseInternal`.
* `removeWitness` — `RemoveAndRegisterForPostsolve(ci, x)`, used both for
  blocked clauses and for the final elimination loops: when `D ∋ x` is
  deleted and logged, every remaining clause `E ∋ ¬x` either resolves
  tautologically with `D` or the (previously added, still present) resolvent
  of `D` and `E` subsumes it.
* `addEntailed` — unit clauses added by the prober for literals fixed at
  root level (entailed by the current clauses through unit propagation).
* `substitute` — the probing rewrite: every literal is mapped to its
  representative (an involution-compatible idempotent map whose classes are
  equivalences entailed by the current clauses, cf. the C8 invariant), and
  the records `(i, {i, ¬ρ(i)})` of `ProbeAndFindEquivalentLiteral` are
  appended for all moved literals. -/
inductive Step : List (List Nat) × List (Nat × List Nat) →
    List (List Nat) × List (Nat × List Nat) → Prop
  | subsume (L1 L2 : List (List Nat)) (D C : List Nat)
      (log : List (Nat × List Nat)) :
      C ∈ L1 ++ L2 → (∀ l ∈ C, l ∈ D) →
      Step (L1 ++ D :: L2, log) (L1 ++ L2, log)
  | strengthen (L1 L2 : List (List Nat)) (D1 D2 C : List Nat) (x : Nat)
      (log : List (Nat × List Nat)) :
      C ∈ L1 ++ L2 → (∀ l ∈ C, l = negLit x ∨ l ∈ D1 ++ D2) →
      Step (L1 ++ (D1 ++ x :: D2) :: L2, log) (L1 ++ (D1 ++ D2) :: L2, log)
  | addResolvent (live : List (List Nat)) (log : List (Nat × List Nat))
      (C1 C2 R : List Nat) (y : Nat) :
      C1 ∈ live → C2 ∈ live → y ∈ C1 → negLit y ∈ C2 →
      (∀ l, l ∈ R ↔ ((l ∈ C1 ∧ l ≠ y) ∨ (l ∈ C2 ∧ l ≠ negLit y))) →
      Step (live, log) (live ++ [R], log)
  | removeWitness (L1 L2 : List (List Nat)) (D : List Nat) (x : Nat)
      (log : List (Nat × List Nat)) :
      x ∈ D →
      (∀ E ∈ L1 ++ L2, negLit x ∈ E →
        (∃ z ∈ D, z ≠ x ∧ negLit z ∈ E) ∨
        (∃ R ∈ L1 ++ L2, ∀ l ∈ R, (l ∈ D ∧ l ≠ x) ∨ (l ∈ E ∧ l ≠ negLit x))) →
      Step (L1 ++ D :: L2, log) (L1 ++ L2, log ++ [(x, D)])
  | addEntailed (live : List (List Nat)) (log : List (Nat × List Nat))
      (C : List Nat) :
      (∀ α, satF α live → clauseVal α C = true) →
      Step (live, log) (live ++ [C], log)
  | substitute (live : List (List Nat)) (log : List (Nat × List Nat))
      (ρ : Nat → Nat) (N : Nat) :
      (∀ l, ρ (negLit l) = negLit (ρ l)) →
      (∀ l, ρ (ρ l) = ρ l) →
      (∀ l, ρ l ≠ l → l < 2 * N) →
      (∀ α, satF α live → ∀ l, litValB α (ρ l) = litValB α l) →
      Step (live, log)
        (live.map (List.map ρ), log ++ substEntries ρ (2 * N))

/-- One step preserves the replay invariant: any model of the current
database, replayed through the log suffix the step appended, satisfies the
previous database; hence the full replay keeps satisfying both the current
database and the original formula. -/
theorem step_preserve (F0 : List (List Nat))
    {S S' : List (List Nat) × List (Nat × List Nat)} (hstep : Step S S')
    (hP : ∀ α, satF α S.1 →
      satF (postReplay S.2 α) S.1 ∧ satF (postReplay S.2 α) F0) :
    ∀ α, satF α S'.1 →
      satF (postReplay S'.2 α) S'.1 ∧ satF (postReplay S'.2 α) F0 := by
  cases hstep with
  | subsume L1 L2 D C log hC hsub =>
    intro α hα
    have hαD : clauseVal α D = true := clauseVal_subset hsub (hα C hC)
    obtain ⟨h1, h2⟩ := hP α (satF_append_cons hα hαD)
    exact ⟨satF_of_append_cons h1, h2⟩
  | strengthen L1 L2 D1 D2 C x log hC hsub =>
    intro α hα
    have hαD : clauseVal α (D1 ++ x :: D2) = true := by
      refine clauseVal_subset ?_ (hα (D1 ++ D2) (List.mem_append.mpr
        (Or.inr (List.mem_cons_self _ _))))
      intro l hl
      rcases List.mem_append.mp hl with h | h
      · exact List.mem_append.mpr (Or.inl h)
      · exact List.mem_append.mpr (Or.inr (List.mem_cons_of_mem _ h))
    have hα' : satF α (L1 ++ (D1 ++ x :: D2) :: L2) :=
      satF_append_cons (satF_of_append_cons hα) hαD
    obtain ⟨h1, h2⟩ := hP α hα'
    refine ⟨?_, h2⟩
    refine satF_append_cons (satF_of_append_cons h1) ?_
    exact strengthen_entails hsub _ (h1 C (mem_append_cons_of_mem_append hC))
      (h1 (D1 ++ x :: D2) (List.mem_append.mpr (Or.inr (List.mem_cons_self _ _))))
  | addResolvent live log C1 C2 R y hC1 hC2 hy hny hR =>
    intro α hα
    obtain ⟨h1, h2⟩ := hP α (fun c hc => hα c (List.mem_append.mpr (Or.inl hc)))
    refine ⟨?_, h2⟩
    intro c hc
    rcases List.mem_append.mp hc with h | h
    · exact h1 c h
    · rcases List.mem_cons.mp h with h' | h'
      · rw [h']
        exact resolvent_entails hR _ (h1 C1 hC1) (h1 C2 hC2)
      · simp at h'
  | removeWitness L1 L2 D x log hx hw =>
    intro α hα
    have hrw : postReplay (log ++ [(x, D)]) α
        = postReplay log (stepEntry (x, D) α) := by
      rw [postReplay_append]
      rfl
    obtain ⟨h1, h2⟩ := hP (stepEntry (x, D) α) (removeWitness_sound hx hw α hα)
    rw [hrw]
    exact ⟨satF_of_append_cons h1, h2⟩
  | addEntailed live log C hent =>
    intro α hα
    obtain ⟨h1, h2⟩ := hP α (fun c hc => hα c (List.mem_append.mpr (Or.inl hc)))
    refine ⟨?_, h2⟩
    intro c hc
    rcases List.mem_append.mp hc with h | h
    · exact h1 c h
    · rcases List.mem_cons.mp h with h' | h'
      · rw [h']
        exact hent _ h1
      · simp at h'
  | substitute live log ρ N hneg hidem hbound hequiv =>
    intro α hα
    have hrw : postReplay (log ++ substEntries ρ (2 * N)) α
        = postReplay log (postReplay (substEntries ρ (2 * N)) α) :=
      postReplay_append _ _ _
    have hβ1 : satF (postReplay (substEntries ρ (2 * N)) α) live := by
      intro C hC
      have hmap : clauseVal α (C.map ρ) = true :=
        hα (C.map ρ) (List.mem_map_of_mem _ hC)
      obtain ⟨lρ, hmem, hv⟩ := clauseVal_exists hmap
      obtain ⟨l, hl, rfl⟩ := List.mem_map.mp hmem
      refine clauseVal_of_mem hl ?_
      rw [substEntries_replay ρ hneg hidem N α l]
      by_cases hvar : litVar l < N
      · rw [if_pos hvar]
        exact hv
      · rw [if_neg hvar]
        have hfix : ρ l = l := by
          by_contra h
          have := hbound l h
          unfold litVar at hvar
          omega
        rw [← hfix]
        exact hv
    obtain ⟨h1, h2⟩ := hP _ hβ1
    rw [hrw]
    refine ⟨?_, h2⟩
    intro c hc
    obtain ⟨C, hC, rfl⟩ := List.mem_map.mp hc
    obtain ⟨l, hl, hv⟩ := clauseVal_exists (h1 C hC)
    refine clauseVal_of_mem (List.mem_map_of_mem _ hl) ?_
    rw [hequiv _ h1 l]
    exact hv

/-- Replay invariant for every state reachable from the freshly filled
presolver: a model of the current database, replayed through the log,
satisfies both the current database and the original formula. -/
theorem presolve_reach_invariant (F0 : List (List Nat))
    {S : List (List Nat) × List (Nat × List Nat)}
    (hreach : Relation.ReflTransGen Step (F0, []) S) :
    ∀ α, satF α S.1 →
      satF (postReplay S.2 α) S.1 ∧ satF (postReplay S.2 α) F0 := by
  induction hreach with
  | refl => exact fun α hα => ⟨hα, hα⟩
  | tail hsteps hstep ih => exact step_preserve F0 hstep ih

/-- C1 (postsolve soundness): for any original formula `F`, any sequence of
presolve/probing operations leading to the reduced database `live` with
postsolve log `log`, and any model of `live`, replaying the log in reverse
yields a model of every clause of `F`. -/
theorem presolve_postsolve_roundtrip (F : List (List Nat))
    (live : List (List Nat)) (log : List (Nat × List Nat))
    (hreach : Relation.ReflTransGen Step (F, []) (live, log)) :
    ∀ α, satF α live → satF (postReplay log α) F :=
  fun α hα => (presolve_reach_invariant F hreach α hα).2

/-- Witness for `presolve_postsolve_roundtrip`: `F = {{x₀}, {x₀, x₁}}`, one
subsumption step deletes `{x₀, x₁}`, and the all-true model of the remaining
formula postsolves to a model of `F`. -/
theorem presolve_postsolve_roundtrip_witness :
    satF (postReplay [] (fun _ => true)) [[0], [0, 2]] :=
  presolve_postsolve_roundtrip [[0], [0, 2]] [[0]] []
    (Relation.ReflTransGen.single
      (Step.subsume [[0]] [] [0, 2] [0] [] (by simp) (by decide)))
    (fun _ => true) (by decide)

/-! ### `SatCoreBasedOptimizer::Optimize`, SAT branch (complete_optimizer.cc,
lines 158-176)

On `MODEL_SAT` the loop scans the node list and updates
`stratified_lower_bound_` with the compound condition of the source; the call
then returns `SOLUTION_FOUND` (resetting `assumptions_already_added_`, i.e.
marking the assumptions stale) exactly when the bound strictly decreased, and
`OPTIMAL_SOLUTION_FOUND` otherwise.  Node weights are `Coefficient` (int64);
we use unbounded `Int`, as no overflow is involved in the comparison logic. -/

inductive BopStatus where
  | OPTIMAL_SOLUTION_FOUND
  | SOLUTION_FOUND
  | INFEASIBLE
  | CONTINUE
deriving DecidableEq

/-- The `for (EncodingNode* n : nodes_)` update loop over the node weights,
from a general accumulator. -/
def stratifiedFoldFrom (old : Int) (ws : List Int) (s : Int) : Int :=
  ws.foldl (fun s w => if w < old ∧ (s = old ∨ w > s) then w else s) s

/-- The loop as run by the source, from `old_lower_bound`. -/
def stratifiedFold (old : Int) (ws : List Int) : Int :=
  stratifiedFoldFrom old ws old

/-- Lines 158-176: returns the new `stratified_lower_bound_`, the new value
of `assumptions_already_added_` (it was set to true at line 143; it is reset
to false exactly when a strictly better bound was found), and the status. -/
def onSatCase (old : Int) (ws : List Int) : Int × Bool × BopStatus :=
  let nb := stratifiedFold old ws
  (nb, !decide (nb < old),
    if nb < old then BopStatus.SOLUTION_FOUND
    else BopStatus.OPTIMAL_SOLUTION_FOUND)

theorem stratifiedFoldFrom_cons (old w s : Int) (rest : List Int) :
    stratifiedFoldFrom old (w :: rest) s
      = stratifiedFoldFrom old rest (if w < old ∧ (s = old ∨ w > s) then w else s) :=
  rfl

theorem stratifiedFoldFrom_lt (old : Int) :
    ∀ (ws : List Int) (s : Int), s < old → stratifiedFoldFrom old ws s < old := by
  intro ws
  induction ws with
  | nil => intro s h; exact h
  | cons w rest ih =>
    intro s h
    rw [stratifiedFoldFrom_cons]
    by_cases hc : w < old ∧ (s = old ∨ w > s)
    · rw [if_pos hc]; exact ih w hc.1
    · rw [if_neg hc]; exact ih s h

theorem stratifiedFoldFrom_le (old : Int) :
    ∀ (ws : List Int) (s : Int), s < old → s ≤ stratifiedFoldFrom old ws s := by
  intro ws
  induction ws with
  | nil => intro s _; exact le_refl s
  | cons w rest ih =>
    intro s h
    rw [stratifiedFoldFrom_cons]
    by_cases hc : w < old ∧ (s = old ∨ w > s)
    · rw [if_pos hc]
      rcases hc.2 with h' | h'
      · omega
      · exact le_trans (le_of_lt h') (ih w hc.1)
    · rw [if_neg hc]; exact ih s h

theorem stratifiedFoldFrom_origin (old : Int) :
    ∀ (ws : List Int) (s : Int),
      stratifiedFoldFrom old ws s = s ∨
        (stratifiedFoldFrom old ws s ∈ ws ∧ stratifiedFoldFrom old ws s < old) := by
  intro ws
  induction ws with
  | nil => intro s; exact Or.inl rfl
  | cons w rest ih =>
    intro s
    rw [stratifiedFoldFrom_cons]
    by_cases hc : w < old ∧ (s = old ∨ w > s)
    · rw [if_pos hc]
      rcases ih w with h | ⟨h1, h2⟩
      · rw [h]; exact Or.inr ⟨List.mem_cons_self _ _, hc.1⟩
      · exact Or.inr ⟨List.mem_cons_of_mem _ h1, h2⟩
    · rw [if_neg hc]
      rcases ih s with h | ⟨h1, h2⟩
      · exact Or.inl h
      · exact Or.inr ⟨List.mem_cons_of_mem _ h1, h2⟩

theorem stratifiedFoldFrom_ubound (old : Int) :
    ∀ (ws : List Int) (s : Int), s = old ∨ s < old →
      ∀ w ∈ ws, w < old → w ≤ stratifiedFoldFrom old ws s := by
  intro ws
  induction ws with
  | nil => intro s _ w hw; simp at hw
  | cons w0 rest ih =>
    intro s hs w hw hwlt
    rw [stratifiedFoldFrom_cons]
    by_cases hc : w0 < old ∧ (s = old ∨ w0 > s)
    · rw [if_pos hc]
      rcases List.mem_cons.mp hw with rfl | hw'
      · exact stratifiedFoldFrom_le old rest w hc.1
      · exact ih w0 (Or.inr hc.1) w hw' hwlt
    · rw [if_neg hc]
      rcases List.mem_cons.mp hw with rfl | hw'
      · -- the guard failed though w < old, so s < old and w ≤ s already
        have hsl : s ≠ old ∧ w ≤ s := by
          by_contra h
          push_neg at h
          rcases hs with h' | h'
          · exact hc ⟨hwlt, Or.inl h'⟩
          · exact hc ⟨hwlt, Or.inr (h (fun he => absurd he (by omega)))⟩
        have hslt : s < old := by rcases hs with h' | h' <;> [exact absurd h' hsl.1; exact h']
        exact le_trans hsl.2 (stratifiedFoldFrom_le old rest s hslt)
      · exact ih s hs w hw' hwlt

theorem stratifiedFoldFrom_none (old : Int) :
    ∀ (ws : List Int) (s : Int), (∀ w ∈ ws, ¬ w < old) →
      stratifiedFoldFrom old ws s = s := by
  intro ws
  induction ws with
  | nil => intro s _; rfl
  | cons w rest ih =>
    intro s h
    rw [stratifiedFoldFrom_cons,
      if_neg (fun hc => h w (List.mem_cons_self _ _) hc.1)]
    exact ih s (fun w' hw' => h w' (List.mem_cons_of_mem _ hw'))

theorem stratifiedFold_below (old : Int) :
    ∀ (ws : List Int), (∃ w ∈ ws, w < old) → stratifiedFold old ws < old := by
  intro ws
  induction ws with
  | nil => rintro ⟨w, hw, -⟩; simp at hw
  | cons w0 rest ih =>
    rintro ⟨w, hw, hwlt⟩
    show stratifiedFoldFrom old (w0 :: rest) old < old
    rw [stratifiedFoldFrom_cons]
    by_cases hc : w0 < old ∧ ((old : Int) = old ∨ w0 > old)
    · rw [if_pos hc]
      exact stratifiedFoldFrom_lt old rest w0 hc.1
    · rw [if_neg hc]
      have hw0 : ¬ w0 < old := fun h => hc ⟨h, Or.inl rfl⟩
      rcases List.mem_cons.mp hw with rfl | hw'
      · exact absurd hwlt hw0
      · exact ih ⟨w, hw', hwlt⟩

/-- C5 (stratified lower-bound update on SAT): the new
`stratified_lower_bound_` is the largest node weight strictly below its
previous value, or unchanged if no node weight is strictly below it; the call
returns `SOLUTION_FOUND` and marks the assumptions stale
(`assumptions_already_added_ = false`) exactly when the bound strictly
decreased, and `OPTIMAL_SOLUTION_FOUND` otherwise. -/
theorem onSatCase_spec (old : Int) (ws : List Int) :
    ((∃ w ∈ ws, w < old) →
      (onSatCase old ws).1 ∈ ws ∧ (onSatCase old ws).1 < old ∧
      ∀ w ∈ ws, w < old → w ≤ (onSatCase old ws).1) ∧
    ((¬ ∃ w ∈ ws, w < old) → (onSatCase old ws).1 = old) ∧
    ((onSatCase old ws).2.2 = BopStatus.SOLUTION_FOUND ↔ (onSatCase old ws).1 < old) ∧
    ((onSatCase old ws).2.1 = false ↔ (onSatCase old ws).1 < old) := by
  have hfst : (onSatCase old ws).1 = stratifiedFold old ws := rfl
  have hfrom : stratifiedFold old ws = stratifiedFoldFrom old ws old := rfl
  refine ⟨?_, ?_, ?_, ?_⟩
  · intro hex
    have hlt : stratifiedFold old ws < old := stratifiedFold_below old ws hex
    have horig := stratifiedFoldFrom_origin old ws old
    rw [← hfrom] at horig
    have hmem : stratifiedFold old ws ∈ ws := by
      rcases horig with h | ⟨h1, -⟩
      · rw [h] at hlt; omega
      · exact h1
    rw [hfst]
    exact ⟨hmem, hlt, fun w hw hwlt => by
      rw [hfrom]
      exact stratifiedFoldFrom_ubound old ws old (Or.inl rfl) w hw hwlt⟩
  · intro hno
    push_neg at hno
    rw [hfst, hfrom]
    exact stratifiedFoldFrom_none old ws old (fun w hw => by
      have := hno w hw
      omega)
  · rw [hfst]
    show (if stratifiedFold old ws < old then BopStatus.SOLUTION_FOUND
      else BopStatus.OPTIMAL_SOLUTION_FOUND) = BopStatus.SOLUTION_FOUND ↔ _
    by_cases h : stratifiedFold old ws < old
    · rw [if_pos h]; exact ⟨fun _ => h, fun _ => rfl⟩
    · rw [if_neg h]
      exact ⟨fun hh => BopStatus.noConfusion hh, fun hh => absurd hh h⟩
  · rw [hfst]
    show (!decide (stratifiedFold old ws < old)) = false ↔ _
    by_cases h : stratifiedFold old ws < old <;> simp [h]

/-- Witness for `onSatCase_spec` at `old = 3`, `ws = [1, 3, 2]`
(the new bound is 2, the largest weight strictly below 3). -/
theorem onSatCase_spec_witness :
    (onSatCase 3 [1, 3, 2]).1 ∈ ([1, 3, 2] : List Int) ∧
    (onSatCase 3 [1, 3, 2]).1 < 3 ∧
    ∀ w ∈ ([1, 3, 2] : List Int), w < 3 → w ≤ (onSatCase 3 [1, 3, 2]).1 :=
  (onSatCase_spec 3 [1, 3, 2]).1 (by decide)

/-! ### `SatCoreBasedOptimizer::Optimize`, core branch (complete_optimizer.cc, lines 180-236) -/

/-- An encoding node reduced to the two fields the core-processing code
reads and writes: the output literal `literal(0)` (as a literal index) and
the weight. `EncodingNode` itself (sat/encoding.h) is outside this tree. -/
structure ENode where
  lit0 : Nat
  weight : Int
deriving DecidableEq

/-- `sat::kCoefficientMax` (sat/pb_constraint.h, outside this tree): the
sentinel starting value of the `min_weight` scan at line 184. Only the
property that it dominates every actual node weight is used, through an
explicit hypothesis, so its exact value is irrelevant. -/
def kCoefficientMax : Int := 2 ^ 62

/-- The inner search of the `min_weight` scan (lines 188-191): advance
`index` to the first node whose negated output literal is the core literal
and leave `index` there — the returned list starts AT the matched node.
`none` models the `CHECK_LT(index, nodes_.size())` of line 192 firing. -/
def findNode : List ENode → Nat → Option (ENode × List ENode)
  | [], _ => none
  | n :: ns, c => if negLit n.lit0 = c then some (n, n :: ns) else findNode ns c

/-- The `min_weight` scan (lines 184-195): a single pass with one shared,
non-restarting `index` over `nodes_`, taking the min of matched weights. -/
def minScanAux : List ENode → List Nat → Int → Option Int
  | _, [], acc => some acc
  | ns, c :: cs, acc =>
    (findNode ns c).bind fun mr => minScanAux mr.2 cs (min acc mr.1.weight)

def minScan (nodes : List ENode) (core : List Nat) : Option Int :=
  minScanAux nodes core kCoefficientMax

/-- The inner skip loop of the core-processing pass (lines 212-216): the
skipped nodes are copied down to `nodes_[new_node_index]` (returned as the
first component); the matched node and the remainder AFTER it follow
(`++index` at line 224 moves past the match). `none` models the `CHECK_LT`
firing when the scan runs off the end. -/
def findNodeAdv : List ENode → Nat → Option (List ENode × ENode × List ENode)
  | [], _ => none
  | n :: ns, c =>
    if negLit n.lit0 = c then some ([], n, ns)
    else (findNodeAdv ns c).map fun r => (n :: r.1, r.2.1, r.2.2)

/-- The core-processing loop, lines 209-230: for each core literal, copy the
skipped nodes, record the matched node in `to_merge`, keep it in place with
its weight decreased by `min_weight` when strictly heavier, drop it
otherwise; finally copy the tail (lines 226-229). Returns the compacted
node list (after the `resize`) and `to_merge`. -/
def processCoreLoop (mw : Int) : List ENode → List Nat → Option (List ENode × List ENode)
  | ns, [] => some (ns, [])
  | ns, c :: cs =>
    (findNodeAdv ns c).bind fun pms =>
      (processCoreLoop mw pms.2.2 cs).map fun km =>
        (pms.1 ++ (if pms.2.1.weight > mw then [ENode.mk pms.2.1.lit0 (pms.2.1.weight - mw)] else [])
            ++ km.1,
          pms.2.1 :: km.2)

/-- Total weight of a node list. -/
def sumW (ns : List ENode) : Int := (ns.map ENode.weight).sum

/-- The whole `else` branch for a core of size ≥ 2 (lines 184-236): compute
`min_weight`, run the compaction loop, push the merged node
(`LazyMergeAllNodeWithPQ` builds it; its output literal is abstracted as
`mergedLit` since encoding.h is outside this tree) and set its weight to
`min_weight` (line 234). `nodes_.back()` at line 235 is the node just
pushed, so the literal of the asserted unit clause (third component) is the
merged node's `literal(0)`. -/
def coreCase (nodes : List ENode) (core : List Nat) (mergedLit : Nat) :
    Option (List ENode × Int × Nat) :=
  (minScan nodes core).bind fun mw =>
    (processCoreLoop mw nodes core).map fun km =>
      (km.1 ++ [ENode.mk mergedLit mw], mw, mergedLit)

theorem minScanAux_nil (ns : List ENode) (acc : Int) :
    minScanAux ns [] acc = some acc := rfl

theorem minScanAux_cons (ns : List ENode) (c : Nat) (cs : List Nat) (acc : Int) :
    minScanAux ns (c :: cs) acc
      = (findNode ns c).bind fun mr => minScanAux mr.2 cs (min acc mr.1.weight) := rfl

theorem processCoreLoop_nil (mw : Int) (ns : List ENode) :
    processCoreLoop mw ns [] = some (ns, []) := rfl

theorem processCoreLoop_cons (mw : Int) (ns : List ENode) (c : Nat) (cs : List Nat) :
    processCoreLoop mw ns (c :: cs)
      = (findNodeAdv ns c).bind fun pms =>
          (processCoreLoop mw pms.2.2 cs).map fun km =>
            (pms.1 ++ (if pms.2.1.weight > mw then [ENode.mk pms.2.1.lit0 (pms.2.1.weight - mw)] else [])
                ++ km.1,
              pms.2.1 :: km.2) := rfl

theorem sumW_nil : sumW [] = 0 := rfl

theorem sumW_cons (n : ENode) (ns : List ENode) :
    sumW (n :: ns) = n.weight + sumW ns := by
  simp [sumW]

theorem sumW_append (a b : List ENode) : sumW (a ++ b) = sumW a + sumW b := by
  simp [sumW]

theorem findNodeAdv_spec :
    ∀ (ns : List ENode) (c : Nat) (pre : List ENode) (m : ENode) (suf : List ENode),
      findNodeAdv ns c = some (pre, m, suf) →
      ns = pre ++ m :: suf ∧ negLit m.lit0 = c := by
  intro ns
  induction ns with
  | nil => intro c pre m suf h; exact absurd h (by simp [findNodeAdv])
  | cons n ns ih =>
    intro c pre m suf h
    by_cases hc : negLit n.lit0 = c
    · rw [findNodeAdv, if_pos hc] at h
      simp only [Option.some.injEq, Prod.mk.injEq] at h
      obtain ⟨h1, h2, h3⟩ := h
      subst h1; subst h2; subst h3
      exact ⟨rfl, hc⟩
    · rw [findNodeAdv, if_neg hc, Option.map_eq_some'] at h
      obtain ⟨⟨pre', m', suf'⟩, hfa, hf⟩ := h
      simp only [Prod.mk.injEq] at hf
      obtain ⟨h1, h2, h3⟩ := hf
      subst h1; subst h2; subst h3
      obtain ⟨hns, hm⟩ := ih c pre' m' suf' hfa
      exact ⟨by rw [hns]; rfl, hm⟩

theorem findNode_of_adv :
    ∀ (ns : List ENode) (c : Nat) (pre : List ENode) (m : ENode) (suf : List ENode),
      findNodeAdv ns c = some (pre, m, suf) →
      findNode ns c = some (m, m :: suf) := by
  intro ns
  induction ns with
  | nil => intro c pre m suf h; exact absurd h (by simp [findNodeAdv])
  | cons n ns ih =>
    intro c pre m suf h
    by_cases hc : negLit n.lit0 = c
    · rw [findNodeAdv, if_pos hc] at h
      simp only [Option.some.injEq, Prod.mk.injEq] at h
      obtain ⟨-, h2, h3⟩ := h
      subst h2; subst h3
      rw [findNode, if_pos hc]
    · rw [findNodeAdv, if_neg hc, Option.map_eq_some'] at h
      obtain ⟨⟨pre', m', suf'⟩, hfa, hf⟩ := h
      simp only [Prod.mk.injEq] at hf
      obtain ⟨-, h2, h3⟩ := hf
      subst h2; subst h3
      rw [findNode, if_neg hc]
      exact ih c pre' m' suf' hfa

theorem minScanAux_skip (m : ENode) (suf : List ENode) (cs : List Nat) (acc : Int)
    (h : ∀ c' ∈ cs, c' ≠ negLit m.lit0) :
    minScanAux (m :: suf) cs acc = minScanAux suf cs acc := by
  cases cs with
  | nil => rfl
  | cons c' cs' =>
    have hne : ¬ (negLit m.lit0 = c') :=
      fun he => h c' (List.mem_cons_self _ _) he.symm
    rw [minScanAux_cons, minScanAux_cons, findNode, if_neg hne]

theorem processCoreLoop_spec (mw : Int) :
    ∀ (core : List Nat) (ns kept merged : List ENode),
      processCoreLoop mw ns core = some (kept, merged) →
      merged.Sublist ns ∧
      List.Forall₂ (fun (m : ENode) (c : Nat) => negLit m.lit0 = c) merged core ∧
      sumW kept = sumW ns - (merged.map (fun m => min mw m.weight)).sum := by
  intro core
  induction core with
  | nil =>
    intro ns kept merged h
    rw [processCoreLoop_nil] at h
    simp only [Option.some.injEq, Prod.mk.injEq] at h
    obtain ⟨h1, h2⟩ := h
    subst h1; subst h2
    exact ⟨List.nil_sublist _, List.Forall₂.nil, by simp [sumW]⟩
  | cons c cs ih =>
    intro ns kept merged h
    rw [processCoreLoop_cons, Option.bind_eq_some] at h
    obtain ⟨⟨pre, m, suf⟩, hfa, h⟩ := h
    rw [Option.map_eq_some'] at h
    obtain ⟨⟨kept', merged'⟩, hrec, h⟩ := h
    simp only [Prod.mk.injEq] at h
    obtain ⟨h1, h2⟩ := h
    subst h1; subst h2
    obtain ⟨hns, hm⟩ := findNodeAdv_spec ns c pre m suf hfa
    subst hns
    obtain ⟨hsub, hf2, hsum⟩ := ih suf kept' merged' hrec
    refine ⟨((List.Sublist.cons₂ m hsub).trans
      (List.sublist_append_right pre (m :: suf))), List.Forall₂.cons hm hf2, ?_⟩
    rw [sumW_append, sumW_append, sumW_append, sumW_cons, hsum, List.map_cons,
      List.sum_cons]
    by_cases hw : m.weight > mw
    · have hone : sumW [ENode.mk m.lit0 (m.weight - mw)] = m.weight - mw := by
        simp [sumW]
      rw [if_pos hw, hone, min_eq_left (le_of_lt hw)]
      ring
    · rw [if_neg hw, sumW_nil, min_eq_right (le_of_not_lt hw)]
      ring

theorem minScanAux_of_process (mw : Int) :
    ∀ (core : List Nat) (ns kept merged : List ENode) (acc : Int), core.Nodup →
      processCoreLoop mw ns core = some (kept, merged) →
      minScanAux ns core acc = some ((merged.map ENode.weight).foldl min acc) := by
  intro core
  induction core with
  | nil =>
    intro ns kept merged acc _ h
    rw [processCoreLoop_nil] at h
    simp only [Option.some.injEq, Prod.mk.injEq] at h
    obtain ⟨-, h2⟩ := h
    subst h2
    exact minScanAux_nil ns acc
  | cons c cs ih =>
    intro ns kept merged acc hnd h
    rw [List.nodup_cons] at hnd
    rw [processCoreLoop_cons, Option.bind_eq_some] at h
    obtain ⟨⟨pre, m, suf⟩, hfa, h⟩ := h
    rw [Option.map_eq_some'] at h
    obtain ⟨⟨kept', merged'⟩, hrec, h⟩ := h
    simp only [Prod.mk.injEq] at h
    obtain ⟨-, h2⟩ := h
    subst h2
    obtain ⟨-, hm⟩ := findNodeAdv_spec ns c pre m suf hfa
    have hskip : ∀ c' ∈ cs, c' ≠ negLit m.lit0 := by
      intro c' hc' he
      rw [he, hm] at hc'
      exact hnd.1 hc'
    rw [minScanAux_cons, findNode_of_adv ns c pre m suf hfa, Option.some_bind,
      minScanAux_skip m suf cs _ hskip, ih suf kept' merged' (min acc m.weight) hnd.2 hrec]
    rfl

theorem foldl_min_le :
    ∀ (ws : List Int) (acc : Int),
      ws.foldl min acc ≤ acc ∧ ∀ w ∈ ws, ws.foldl min acc ≤ w := by
  intro ws
  induction ws with
  | nil => intro acc; exact ⟨le_refl _, by simp⟩
  | cons w ws ih =>
    intro acc
    rw [List.foldl_cons]
    obtain ⟨h1, h2⟩ := ih (min acc w)
    refine ⟨le_trans h1 (min_le_left _ _), ?_⟩
    intro w' hw'
    rcases List.mem_cons.mp hw' with rfl | hw'
    · exact le_trans h1 (min_le_right _ _)
    · exact h2 w' hw'

theorem foldl_min_origin :
    ∀ (ws : List Int) (acc : Int), ws.foldl min acc = acc ∨ ws.foldl min acc ∈ ws := by
  intro ws
  induction ws with
  | nil => intro acc; exact Or.inl rfl
  | cons w ws ih =>
    intro acc
    rw [List.foldl_cons]
    rcases ih (min acc w) with h | h
    · rw [h]
      rcases min_cases acc w with ⟨h', -⟩ | ⟨h', -⟩
      · exact Or.inl h'
      · right; rw [h']; exact List.mem_cons_self _ _
    · exact Or.inr (List.mem_cons_of_mem _ h)

theorem filterMap_some_of {α : Type} (f : α → Option α) :
    ∀ (l : List α), (∀ a ∈ l, f a = some a) → l.filterMap f = l := by
  intro l
  induction l with
  | nil => intro _; rfl
  | cons a l ih =>
    intro h
    rw [List.filterMap_cons, h a (List.mem_cons_self _ _),
      ih (fun x hx => h x (List.mem_cons_of_mem _ hx))]

theorem filterMap_congr_mem {α β : Type} (f g : α → Option β) :
    ∀ (l : List α), (∀ a ∈ l, f a = g a) → l.filterMap f = l.filterMap g := by
  intro l
  induction l with
  | nil => intro _; rfl
  | cons a l ih =>
    intro h
    rw [List.filterMap_cons, List.filterMap_cons, h a (List.mem_cons_self _ _),
      ih (fun x hx => h x (List.mem_cons_of_mem _ hx))]

theorem sum_min_of_le (mw : Int) :
    ∀ (l : List ENode), (∀ m ∈ l, mw ≤ m.weight) →
      (l.map (fun m => min mw m.weight)).sum = mw * l.length := by
  intro l
  induction l with
  | nil => intro _; simp
  | cons n l ih =>
    intro h
    rw [List.map_cons, List.sum_cons, ih (fun x hx => h x (List.mem_cons_of_mem _ hx)),
      min_eq_left (h n (List.mem_cons_self _ _)), List.length_cons]
    push_cast
    ring

theorem processCoreLoop_kept (mw : Int) :
    ∀ (core : List Nat) (ns kept merged : List ENode), ns.Nodup →
      processCoreLoop mw ns core = some (kept, merged) →
      kept = ns.filterMap (fun n =>
        if n ∈ merged then
          (if n.weight > mw then some (ENode.mk n.lit0 (n.weight - mw)) else none)
        else some n) := by
  intro core
  induction core with
  | nil =>
    intro ns kept merged _ h
    rw [processCoreLoop_nil] at h
    simp only [Option.some.injEq, Prod.mk.injEq] at h
    obtain ⟨h1, h2⟩ := h
    subst h1; subst h2
    exact (filterMap_some_of _ ns (fun a _ => by simp)).symm
  | cons c cs ih =>
    intro ns kept merged hnd h
    rw [processCoreLoop_cons, Option.bind_eq_some] at h
    obtain ⟨⟨pre, m, suf⟩, hfa, h⟩ := h
    rw [Option.map_eq_some'] at h
    obtain ⟨⟨kept', merged'⟩, hrec, h⟩ := h
    simp only [Prod.mk.injEq] at h
    obtain ⟨h1, h2⟩ := h
    subst h1; subst h2
    obtain ⟨hns, -⟩ := findNodeAdv_spec ns c pre m suf hfa
    subst hns
    have hmsuf : (m :: suf).Nodup :=
      List.Nodup.sublist (List.sublist_append_right pre (m :: suf)) hnd
    have hmnotin : m ∉ suf := (List.nodup_cons.mp hmsuf).1
    have hsufnd : suf.Nodup := (List.nodup_cons.mp hmsuf).2
    have hdisj : List.Disjoint pre (m :: suf) := List.disjoint_of_nodup_append hnd
    have hsub' : merged'.Sublist suf := (processCoreLoop_spec mw cs suf kept' merged' hrec).1
    have hkept' := ih suf kept' merged' hsufnd hrec
    rw [List.filterMap_append, List.filterMap_cons]
    have hpre : pre.filterMap (fun n =>
        if n ∈ m :: merged' then
          (if n.weight > mw then some (ENode.mk n.lit0 (n.weight - mw)) else none)
        else some n) = pre := by
      refine filterMap_some_of _ pre (fun p hp => ?_)
      rw [if_neg]
      intro hpm
      rcases List.mem_cons.mp hpm with rfl | hpm'
      · exact hdisj hp (List.mem_cons_self _ _)
      · exact hdisj hp (List.mem_cons_of_mem _ (hsub'.subset hpm'))
    have hsuf : suf.filterMap (fun n =>
        if n ∈ m :: merged' then
          (if n.weight > mw then some (ENode.mk n.lit0 (n.weight - mw)) else none)
        else some n) = suf.filterMap (fun n =>
        if n ∈ merged' then
          (if n.weight > mw then some (ENode.mk n.lit0 (n.weight - mw)) else none)
        else some n) := by
      refine filterMap_congr_mem _ _ suf (fun n hn => ?_)
      by_cases hnm : n ∈ merged'
      · rw [if_pos (List.mem_cons_of_mem _ hnm), if_pos hnm]
      · rw [if_neg, if_neg hnm]
        intro hcon
        rcases List.mem_cons.mp hcon with rfl | h'
        · exact hmnotin hn
        · exact hnm h'
    rw [hpre, if_pos (List.mem_cons_self m merged'), hsuf, ← hkept', List.append_assoc]
    by_cases hw : m.weight > mw
    · simp only [if_pos hw]
      rfl
    · simp only [if_neg hw]
      rfl

/-- C6 (core weight accounting): for a core of `k ≥ 2` distinct literals that
the `else` branch (lines 184-236) processes successfully, the matched
("cored") nodes form an in-order selection from the node list matching the
core literal for literal; `min_weight` is exactly the minimum matched
weight `w*`; every matched node has its weight reduced by `w*` (dropped
when the residual is zero, retained in place otherwise, all other nodes
kept unchanged in order); one merged node of weight `w*` is appended at the
back; the total weight decreases by exactly `(k-1)*w*`; and the asserted
unit literal is the merged node's output literal. -/
theorem coreCase_weight_accounting
    (nodes : List ENode) (core : List Nat) (mergedLit : Nat)
    (nodes' : List ENode) (mw : Int) (unitLit : Nat)
    (hndc : core.Nodup) (hndn : nodes.Nodup) (hk : 2 ≤ core.length)
    (hwlt : ∀ n ∈ nodes, n.weight < kCoefficientMax)
    (hrun : coreCase nodes core mergedLit = some (nodes', mw, unitLit)) :
    ∃ merged : List ENode,
      merged.Sublist nodes ∧
      List.Forall₂ (fun (m : ENode) (c : Nat) => negLit m.lit0 = c) merged core ∧
      merged.length = core.length ∧
      (∀ m ∈ merged, mw ≤ m.weight) ∧
      (∃ m ∈ merged, m.weight = mw) ∧
      nodes' = (nodes.filterMap (fun n =>
          if n ∈ merged then
            (if n.weight > mw then some (ENode.mk n.lit0 (n.weight - mw)) else none)
          else some n)) ++ [ENode.mk mergedLit mw] ∧
      sumW nodes' = sumW nodes - ((core.length : Int) - 1) * mw ∧
      nodes'.getLast? = some (ENode.mk mergedLit mw) ∧
      unitLit = mergedLit := by
  rw [coreCase, Option.bind_eq_some] at hrun
  obtain ⟨mw0, hms, hrun⟩ := hrun
  rw [Option.map_eq_some'] at hrun
  obtain ⟨⟨kept, merged⟩, hproc, heq⟩ := hrun
  simp only [Prod.mk.injEq] at heq
  obtain ⟨h1, h2, h3⟩ := heq
  have h2' := h2.symm
  subst h2'; subst h3; subst h1
  obtain ⟨hsub, hf2, hsum⟩ := processCoreLoop_spec mw core nodes kept merged hproc
  have hlen := List.Forall₂.length_eq hf2
  have hscan := minScanAux_of_process mw core nodes kept merged kCoefficientMax hndc hproc
  rw [minScan] at hms
  rw [hms] at hscan
  simp only [Option.some.injEq] at hscan
  obtain ⟨hacc, hmem⟩ := foldl_min_le (merged.map ENode.weight) kCoefficientMax
  have hge : ∀ m ∈ merged, mw ≤ m.weight := by
    intro m hm
    rw [hscan]
    exact hmem m.weight (List.mem_map.mpr ⟨m, hm, rfl⟩)
  have hne : merged ≠ [] := by
    intro he
    rw [he] at hlen
    simp at hlen
    omega
  have hatt : ∃ m ∈ merged, m.weight = mw := by
    rcases foldl_min_origin (merged.map ENode.weight) kCoefficientMax with h | h
    · exfalso
      obtain ⟨m0, hm0⟩ := List.exists_mem_of_ne_nil merged hne
      have hb1 : mw ≤ m0.weight := hge m0 hm0
      have hb2 : m0.weight < kCoefficientMax := hwlt m0 (hsub.subset hm0)
      rw [hscan, h] at hb1
      omega
    · rw [← hscan] at h
      obtain ⟨m0, hm0, hw0⟩ := List.mem_map.mp h
      exact ⟨m0, hm0, hw0⟩
  have hkept := processCoreLoop_kept mw core nodes kept merged hndn hproc
  have hsum2 : (merged.map (fun m => min mw m.weight)).sum = mw * merged.length :=
    sum_min_of_le mw merged hge
  refine ⟨merged, hsub, hf2, hlen, hge, hatt, by rw [hkept], ?_, List.getLast?_concat _, rfl⟩
  rw [sumW_append, hsum, hsum2, ← hlen]
  have hone : sumW [ENode.mk mergedLit mw] = mw := by simp [sumW]
  rw [hone]
  push_cast
  ring

/-- Witness for `coreCase_weight_accounting`: nodes of weights 2, 5, 3 with
literals 0, 2, 4; core `[1, 5]` matches the first and third node; `w* = 2`;
the first node is dropped (residual 0), the third keeps residual 1 in place,
and the merged node of weight 2 is appended; total weight 10 becomes 8. -/
theorem coreCase_weight_accounting_witness :
    ∃ merged : List ENode,
      merged.Sublist [ENode.mk 0 2, ENode.mk 2 5, ENode.mk 4 3] ∧
      List.Forall₂ (fun (m : ENode) (c : Nat) => negLit m.lit0 = c) merged [1, 5] ∧
      merged.length = ([1, 5] : List Nat).length ∧
      (∀ m ∈ merged, (2 : Int) ≤ m.weight) ∧
      (∃ m ∈ merged, m.weight = (2 : Int)) ∧
      ([ENode.mk 2 5, ENode.mk 4 1, ENode.mk 6 2] : List ENode)
        = ([ENode.mk 0 2, ENode.mk 2 5, ENode.mk 4 3].filterMap (fun n =>
            if n ∈ merged then
              (if n.weight > (2 : Int) then some (ENode.mk n.lit0 (n.weight - 2)) else none)
            else some n)) ++ [ENode.mk 6 2] ∧
      sumW [ENode.mk 2 5, ENode.mk 4 1, ENode.mk 6 2]
        = sumW [ENode.mk 0 2, ENode.mk 2 5, ENode.mk 4 3]
            - ((([1, 5] : List Nat).length : Int) - 1) * 2 ∧
      ([ENode.mk 2 5, ENode.mk 4 1, ENode.mk 6 2] : List ENode).getLast?
        = some (ENode.mk 6 2) ∧
      (6 : Nat) = 6 :=
  coreCase_weight_accounting [ENode.mk 0 2, ENode.mk 2 5, ENode.mk 4 3] [1, 5] 6
    [ENode.mk 2 5, ENode.mk 4 1, ENode.mk 6 2] 2 6
    (by decide) (by decide) (by decide) (by decide) (by decide)

/-! ### `SatPresolver::CrossProduct` (simplification.cc, lines 362-450) and the
removal helpers it calls (lines 347-360, 460-467). The presolver state is
reduced to the four components the claim speaks about: the clause database
`clauses_` (an emptied entry stands for a deleted clause), the occurrence
lists `literal_to_clauses_`, the occurrence counts `literal_to_clause_sizes_`
and the postsolve log (the sequence of `postsolver_->Add(x, clause)` calls).
The variable priority queue, which the claim does not mention, is omitted. -/

structure PreState where
  clauses : List (List Nat)
  occ : List (List Nat)
  sizes : List Int
  log : List (Nat × List Nat)
deriving DecidableEq

/-- `literal_to_clauses_[l]`. -/
def occList (st : PreState) (l : Nat) : List Nat := st.occ.getD l []

/-- `SatPresolver::RemoveAndRegisterForPostsolve` (lines 460-467): decrement
the occurrence count of every literal of the clause, push `(x, clause)` on
the postsolve log, clear the clause in place. `literal_to_clauses_` is left
untouched (stale entries are skipped through emptiness tests elsewhere). -/
def removeAndRegister (st : PreState) (ci : Nat) (x : Nat) : PreState :=
  { clauses := st.clauses.set ci []
    occ := st.occ
    sizes := (st.clauses.getD ci []).foldl (fun s e => s.set e (s.getD e 0 - 1)) st.sizes
    log := st.log ++ [(x, st.clauses.getD ci [])] }

/-- One iteration of the loop of
`RemoveAndRegisterForPostsolveAllClauseContaining` (lines 355-357). -/
def removeOne (x : Nat) (st : PreState) (i : Nat) : PreState :=
  if st.clauses.getD i [] = [] then st else removeAndRegister st i x

/-- `RemoveAndRegisterForPostsolveAllClauseContaining(x)` (lines 347-360):
remove every still-live clause registered in `literal_to_clauses_[x]`, then
clear that occurrence list and zero the count of `x`. -/
def removeAllContaining (st : PreState) (x : Nat) : PreState :=
  let st1 := (occList st x).foldl (removeOne x) st
  { st1 with occ := st1.occ.set x [], sizes := st1.sizes.set x 0 }

/-- `SatPresolver::AddClauseInternal` (lines 176-187): append the clause at
index `clauses_.size()` and register it in the occurrence lists and counts
of its literals. (The clause-processing queue is not modelled.) -/
def addClauseInternal (res : List Nat) (st : PreState) : PreState :=
  { clauses := st.clauses ++ [res]
    occ := res.foldl (fun o e => o.set e (o.getD e [] ++ [st.clauses.length])) st.occ
    sizes := res.foldl (fun s e => s.set e (s.getD e 0 + 1)) st.sizes
    log := st.log }

/-- The threshold computation of lines 377-388: for each live clause of
`occ(x)` and of `occ(¬x)`, add `clause_weight + size`. -/
def thresholdOf (cw : Int) (st : PreState) (x : Nat) : Int :=
  (occList st x).foldl
    (fun t i => if st.clauses.getD i [] = [] then t
      else t + cw + (st.clauses.getD i []).length) 0 +
  (occList st (negLit x)).foldl
    (fun t i => if st.clauses.getD i [] = [] then t
      else t + cw + (st.clauses.getD i []).length) 0

/-- The inner loop of lines 398-408 for a fixed clause `ci`: walk `occ(¬x)`,
skip dead clauses, and for each non-tautological resolvent add
`clause_weight + rs` to `size`, returning `none` — the `return false` of
line 406 — as soon as `size` exceeds the threshold. Otherwise return the
final `no_resolvant` flag and the updated `size`. The state is not modified
by this loop. -/
def bveInner (cw threshold : Int) (st : PreState) (x ci : Nat) :
    List Nat → Int → Bool → Option (Bool × Int)
  | [], size, noRes => some (noRes, size)
  | j :: js, size, noRes =>
    if st.clauses.getD j [] = [] then bveInner cw threshold st x ci js size noRes
    else
      let rs := ComputeResolvantSize x (st.clauses.getD ci []) (st.clauses.getD j [])
      if 0 ≤ rs then
        (if threshold < size + cw + rs then none
         else bveInner cw threshold st x ci js (size + cw + rs) false)
      else bveInner cw threshold st x ci js size noRes

/-- The outer loop of lines 394-424: walk `occ(x)`; a clause with no
non-tautological resolvent is blocked and is removed-and-logged right away
(line 422); an inner-loop budget abort (`none`) makes the whole function
return false with the state as mutated so far. -/
def bveLoop1 (cw threshold : Int) (x : Nat) :
    List Nat → PreState → Int → PreState × Option Int
  | [], st, size => (st, some size)
  | i :: is, st, size =>
    if st.clauses.getD i [] = [] then bveLoop1 cw threshold x is st size
    else
      match bveInner cw threshold st x i (occList st (negLit x)) size true with
      | none => (st, none)
      | some p =>
        if p.1 then bveLoop1 cw threshold x is (removeAndRegister st i x) p.2
        else bveLoop1 cw threshold x is st p.2

/-- Inner loop of the resolvent-addition pass (lines 432-437). -/
def bveLoop2Inner (x ci : Nat) : List Nat → PreState → PreState
  | [], st => st
  | j :: js, st =>
    if st.clauses.getD j [] = [] then bveLoop2Inner x ci js st
    else
      match ComputeResolvant x (st.clauses.getD ci []) (st.clauses.getD j []) with
      | none => bveLoop2Inner x ci js st
      | some res => bveLoop2Inner x ci js (addClauseInternal res st)

/-- Outer loop of the resolvent-addition pass (lines 430-438). -/
def bveLoop2 (x : Nat) : List Nat → PreState → PreState
  | [], st => st
  | i :: is, st =>
    if st.clauses.getD i [] = [] then bveLoop2 x is st
    else bveLoop2 x is (bveLoop2Inner x i (occList st (negLit x)) st)

/-- Lines 393-449 of `CrossProduct`, after the early returns, the threshold
computation and the BCE-orientation flip: the counting/blocked-removal pass,
then on completion the resolvent additions and the removal of all clauses
containing `x` or `¬x`. -/
def crossProductMain (cw threshold : Int) (st : PreState) (x : Nat) : Bool × PreState :=
  match bveLoop1 cw threshold x (occList st x) st 0 with
  | (st1, none) => (false, st1)
  | (st1, some _) =>
    (true, removeAllContaining
      (removeAllContaining (bveLoop2 x (occList st1 x) st1) x) (negLit x))

/-- `SatPresolver::CrossProduct(x)` (lines 362-450). `cw` is
`presolve_bve_clause_weight()`, `bt` is `presolve_bve_threshold()`. The
threshold is computed on the unflipped literal (lines 377-388); the literal
is then flipped when `s1 < s2` (line 391) so that the blocked-clause side is
the smaller occurrence list. -/
def crossProduct (cw bt : Int) (st : PreState) (x0 : Nat) : Bool × PreState :=
  if st.sizes.getD x0 0 = 0 ∧ st.sizes.getD (negLit x0) 0 = 0 then (false, st)
  else if 1 < st.sizes.getD x0 0 ∧ 1 < st.sizes.getD (negLit x0) 0 ∧
      bt < st.sizes.getD x0 0 * st.sizes.getD (negLit x0) 0 then (false, st)
  else crossProductMain cw (thresholdOf cw st x0) st
    (if st.sizes.getD x0 0 < st.sizes.getD (negLit x0) 0 then negLit x0 else x0)

theorem getD_set_ne {α : Type} :
    ∀ (o : List α) (e : Nat) (v : α) (z : Nat) (d : α), z ≠ e →
      (o.set e v).getD z d = o.getD z d := by
  intro o
  induction o with
  | nil => intro e v z d _; rfl
  | cons a o ih =>
    intro e v z d hz
    cases e with
    | zero =>
      cases z with
      | zero => exact absurd rfl hz
      | succ z => rfl
    | succ e =>
      cases z with
      | zero => rfl
      | succ z =>
        show (o.set e v).getD z d = o.getD z d
        exact ih e v z d (fun h => hz (by rw [h]))

theorem getD_set_self {α : Type} :
    ∀ (o : List α) (e : Nat) (v d : α), e < o.length →
      (o.set e v).getD e d = v := by
  intro o
  induction o with
  | nil => intro e v d h; simp at h
  | cons a o ih =>
    intro e v d h
    cases e with
    | zero => rfl
    | succ e =>
      show (o.set e v).getD e d = v
      exact ih e v d (by simpa using h)

theorem getD_of_le {α : Type} :
    ∀ (o : List α) (n : Nat) (d : α), o.length ≤ n → o.getD n d = d := by
  intro o
  induction o with
  | nil => intro n d _; cases n <;> rfl
  | cons a o ih =>
    intro n d h
    cases n with
    | zero => simp at h
    | succ n => exact ih n d (by simpa using h)

theorem removeAndRegister_clause (st : PreState) (ci x i : Nat) :
    (removeAndRegister st ci x).clauses.getD i [] =
      if i = ci then [] else st.clauses.getD i [] := by
  show (st.clauses.set ci []).getD i [] = _
  by_cases h : i = ci
  · subst h
    rw [if_pos rfl]
    by_cases hl : i < st.clauses.length
    · exact getD_set_self st.clauses i [] [] hl
    · rw [getD_of_le _ i [] (by rw [List.length_set]; omega)]
  · rw [if_neg h]
    exact getD_set_ne st.clauses ci [] i [] h

/-- What the counting/blocked-removal pass can do to the state: occurrence
lists untouched; the log extended by entries `(x, C)` for clauses `C` that
were live; each clause either untouched or cleared with its old content
logged against `x`. -/
def Loop1Post (st : PreState) (x : Nat) (out : PreState) : Prop :=
  out.occ = st.occ ∧
  ∃ E, out.log = st.log ++ E ∧
    (∀ p ∈ E, p.1 = x ∧ p.2 ≠ []) ∧
    ∀ i, out.clauses.getD i [] = st.clauses.getD i [] ∨
      (out.clauses.getD i [] = [] ∧ (x, st.clauses.getD i []) ∈ E)

theorem loop1Post_refl (st : PreState) (x : Nat) : Loop1Post st x st :=
  ⟨rfl, [], by simp, by simp, fun _ => Or.inl rfl⟩

theorem loop1Post_remove_step (st : PreState) (i0 x : Nat) (out : PreState)
    (h : Loop1Post (removeAndRegister st i0 x) x out)
    (h0 : st.clauses.getD i0 [] ≠ []) : Loop1Post st x out := by
  obtain ⟨hocc, E', hlog, hE, hcl⟩ := h
  refine ⟨hocc, (x, st.clauses.getD i0 []) :: E', ?_, ?_, ?_⟩
  · rw [hlog]
    show (st.log ++ [(x, st.clauses.getD i0 [])]) ++ E' = _
    rw [List.append_assoc]
    rfl
  · intro p hp
    rcases List.mem_cons.mp hp with rfl | hp'
    · exact ⟨rfl, h0⟩
    · exact hE p hp'
  · intro i
    rcases hcl i with hc | ⟨hc1, hc2⟩
    · rw [hc, removeAndRegister_clause]
      by_cases hi : i = i0
      · subst hi
        rw [if_pos rfl]
        exact Or.inr ⟨rfl, List.mem_cons_self _ _⟩
      · rw [if_neg hi]
        exact Or.inl rfl
    · by_cases hi : i = i0
      · subst hi
        exact Or.inr ⟨hc1, List.mem_cons_self _ _⟩
      · rw [removeAndRegister_clause, if_neg hi] at hc2
        exact Or.inr ⟨hc1, List.mem_cons_of_mem _ hc2⟩

theorem bveLoop1_cons (cw th : Int) (x i0 : Nat) (is : List Nat) (st : PreState)
    (size : Int) :
    bveLoop1 cw th x (i0 :: is) st size =
      if st.clauses.getD i0 [] = [] then bveLoop1 cw th x is st size
      else
        match bveInner cw th st x i0 (occList st (negLit x)) size true with
        | none => (st, none)
        | some p =>
          if p.1 then bveLoop1 cw th x is (removeAndRegister st i0 x) p.2
          else bveLoop1 cw th x is st p.2 := rfl

theorem bveLoop1_post (cw th : Int) (x : Nat) :
    ∀ (is : List Nat) (st : PreState) (size : Int),
      Loop1Post st x (bveLoop1 cw th x is st size).1 := by
  intro is
  induction is with
  | nil => intro st size; exact loop1Post_refl st x
  | cons i0 is ih =>
    intro st size
    rw [bveLoop1_cons]
    by_cases h0 : st.clauses.getD i0 [] = []
    · rw [if_pos h0]
      exact ih st size
    · rw [if_neg h0]
      cases hbi : bveInner cw th st x i0 (occList st (negLit x)) size true with
      | none => exact loop1Post_refl st x
      | some p =>
        obtain ⟨noRes, size'⟩ := p
        cases noRes with
        | true =>
          exact loop1Post_remove_step st i0 x _ (ih (removeAndRegister st i0 x) size') h0
        | false =>
          exact ih st size'

theorem removeOne_clause_empty_pres (x : Nat) (st : PreState) (j i : Nat)
    (h : st.clauses.getD i [] = []) :
    (removeOne x st j).clauses.getD i [] = [] := by
  unfold removeOne
  by_cases hj : st.clauses.getD j [] = []
  · rw [if_pos hj]; exact h
  · rw [if_neg hj, removeAndRegister_clause]
    by_cases hi : i = j
    · rw [if_pos hi]
    · rw [if_neg hi]; exact h

theorem removeFold_empty_pres (x : Nat) :
    ∀ (is : List Nat) (st : PreState) (i : Nat),
      st.clauses.getD i [] = [] →
      (is.foldl (removeOne x) st).clauses.getD i [] = [] := by
  intro is
  induction is with
  | nil => intro st i h; exact h
  | cons j is ih =>
    intro st i h
    rw [List.foldl_cons]
    exact ih (removeOne x st j) i (removeOne_clause_empty_pres x st j i h)

theorem removeOne_clause_self (x : Nat) (st : PreState) (j : Nat) :
    (removeOne x st j).clauses.getD j [] = [] := by
  unfold removeOne
  by_cases hj : st.clauses.getD j [] = []
  · rw [if_pos hj]; exact hj
  · rw [if_neg hj, removeAndRegister_clause, if_pos rfl]

theorem removeFold_empties (x : Nat) :
    ∀ (is : List Nat) (st : PreState) (i : Nat), i ∈ is →
      (is.foldl (removeOne x) st).clauses.getD i [] = [] := by
  intro is
  induction is with
  | nil => intro st i h; simp at h
  | cons j is ih =>
    intro st i h
    rw [List.foldl_cons]
    rcases List.mem_cons.mp h with rfl | h'
    · exact removeFold_empty_pres x is (removeOne x st i) i (removeOne_clause_self x st i)
    · exact ih (removeOne x st j) i h'

theorem removeFold_occ (x : Nat) :
    ∀ (is : List Nat) (st : PreState), (is.foldl (removeOne x) st).occ = st.occ := by
  intro is
  induction is with
  | nil => intro st; rfl
  | cons j is ih =>
    intro st
    rw [List.foldl_cons, ih]
    unfold removeOne
    by_cases hj : st.clauses.getD j [] = []
    · rw [if_pos hj]
    · rw [if_neg hj]
      rfl

theorem removeAllContaining_clauses (st : PreState) (x : Nat) :
    (removeAllContaining st x).clauses = ((occList st x).foldl (removeOne x) st).clauses := rfl

theorem removeAllContaining_empties (st : PreState) (x i : Nat)
    (h : i ∈ occList st x) :
    (removeAllContaining st x).clauses.getD i [] = [] := by
  rw [removeAllContaining_clauses]
  exact removeFold_empties x (occList st x) st i h

theorem removeAllContaining_empty_preserved (st : PreState) (x i : Nat)
    (h : st.clauses.getD i [] = []) :
    (removeAllContaining st x).clauses.getD i [] = [] := by
  rw [removeAllContaining_clauses]
  exact removeFold_empty_pres x (occList st x) st i h

theorem removeAllContaining_occ_ne (st : PreState) (x z : Nat) (h : z ≠ x) :
    occList (removeAllContaining st x) z = occList st z := by
  show (((occList st x).foldl (removeOne x) st).occ.set x []).getD z [] = st.occ.getD z []
  rw [getD_set_ne _ _ _ _ _ h, removeFold_occ]

theorem getD_set_append_mem (o : List (List Nat)) (e ci z i : Nat)
    (h : i ∈ o.getD z []) :
    i ∈ (o.set e (o.getD e [] ++ [ci])).getD z [] := by
  by_cases hz : z = e
  · subst hz
    by_cases hl : z < o.length
    · rw [getD_set_self o z _ [] hl]
      exact List.mem_append_left _ h
    · rw [getD_of_le o z [] (by omega)] at h
      exact absurd h (List.not_mem_nil i)
  · rw [getD_set_ne o e _ z [] hz]
    exact h

theorem addOcc_mem (ci : Nat) :
    ∀ (res : List Nat) (o : List (List Nat)) (z i : Nat),
      i ∈ o.getD z [] →
      i ∈ (res.foldl (fun o e => o.set e (o.getD e [] ++ [ci])) o).getD z [] := by
  intro res
  induction res with
  | nil => intro o z i h; exact h
  | cons e res ih =>
    intro o z i h
    rw [List.foldl_cons]
    exact ih _ z i (getD_set_append_mem o e ci z i h)

theorem addClauseInternal_occ_mem (res : List Nat) (st : PreState) (z i : Nat)
    (h : i ∈ occList st z) : i ∈ occList (addClauseInternal res st) z :=
  addOcc_mem st.clauses.length res st.occ z i h

theorem bveLoop2Inner_cons (x ci j : Nat) (js : List Nat) (st : PreState) :
    bveLoop2Inner x ci (j :: js) st =
      if st.clauses.getD j [] = [] then bveLoop2Inner x ci js st
      else match ComputeResolvant x (st.clauses.getD ci []) (st.clauses.getD j []) with
        | none => bveLoop2Inner x ci js st
        | some res => bveLoop2Inner x ci js (addClauseInternal res st) := rfl

theorem bveLoop2Inner_occ_mem (x ci : Nat) :
    ∀ (js : List Nat) (st : PreState) (z i : Nat),
      i ∈ occList st z → i ∈ occList (bveLoop2Inner x ci js st) z := by
  intro js
  induction js with
  | nil => intro st z i h; exact h
  | cons j js ih =>
    intro st z i h
    rw [bveLoop2Inner_cons]
    by_cases hj : st.clauses.getD j [] = []
    · rw [if_pos hj]; exact ih st z i h
    · rw [if_neg hj]
      cases hr : ComputeResolvant x (st.clauses.getD ci []) (st.clauses.getD j []) with
      | none => exact ih st z i h
      | some res => exact ih (addClauseInternal res st) z i (addClauseInternal_occ_mem res st z i h)

theorem bveLoop2_cons (x i0 : Nat) (is : List Nat) (st : PreState) :
    bveLoop2 x (i0 :: is) st =
      if st.clauses.getD i0 [] = [] then bveLoop2 x is st
      else bveLoop2 x is (bveLoop2Inner x i0 (occList st (negLit x)) st) := rfl

theorem bveLoop2_occ_mem (x : Nat) :
    ∀ (is : List Nat) (st : PreState) (z i : Nat),
      i ∈ occList st z → i ∈ occList (bveLoop2 x is st) z := by
  intro is
  induction is with
  | nil => intro st z i h; exact h
  | cons i0 is ih =>
    intro st z i h
    rw [bveLoop2_cons]
    by_cases hj : st.clauses.getD i0 [] = []
    · rw [if_pos hj]; exact ih st z i h
    · rw [if_neg hj]
      exact ih _ z i (bveLoop2Inner_occ_mem x i0 (occList st (negLit x)) st z i h)

theorem crossProductMain_false (cw th : Int) (st : PreState) (x : Nat)
    (h : (crossProductMain cw th st x).1 = false) :
    Loop1Post st x (crossProductMain cw th st x).2 := by
  have hpost := bveLoop1_post cw th x (occList st x) st 0
  unfold crossProductMain at h ⊢
  rcases hbv : bveLoop1 cw th x (occList st x) st 0 with ⟨st1, r⟩
  rw [hbv] at h hpost
  cases r with
  | none => exact hpost
  | some s => exact Bool.noConfusion h

theorem crossProductMain_true (cw th : Int) (st : PreState) (x : Nat)
    (h : (crossProductMain cw th st x).1 = true) :
    ∀ i, i ∈ occList st x ∨ i ∈ occList st (negLit x) →
      (crossProductMain cw th st x).2.clauses.getD i [] = [] := by
  have hpost := bveLoop1_post cw th x (occList st x) st 0
  unfold crossProductMain at h ⊢
  rcases hbv : bveLoop1 cw th x (occList st x) st 0 with ⟨st1, r⟩
  rw [hbv] at h hpost
  cases r with
  | none => exact Bool.noConfusion h
  | some s =>
    intro i hi
    have hocc1 : st1.occ = st.occ := hpost.1
    have hx1 : occList st1 x = occList st x := by
      rw [occList, occList, hocc1]
    have hnx1 : occList st1 (negLit x) = occList st (negLit x) := by
      rw [occList, occList, hocc1]
    rcases hi with hx | hnx
    · have h1 : i ∈ occList st1 x := by rw [hx1]; exact hx
      have h2 : i ∈ occList (bveLoop2 x (occList st1 x) st1) x :=
        bveLoop2_occ_mem x (occList st1 x) st1 x i h1
      have h3 := removeAllContaining_empties (bveLoop2 x (occList st1 x) st1) x i h2
      exact removeAllContaining_empty_preserved _ (negLit x) i h3
    · have h1 : i ∈ occList st1 (negLit x) := by rw [hnx1]; exact hnx
      have h2 : i ∈ occList (bveLoop2 x (occList st1 x) st1) (negLit x) :=
        bveLoop2_occ_mem x (occList st1 x) st1 (negLit x) i h1
      have h2' : i ∈ occList
          (removeAllContaining (bveLoop2 x (occList st1 x) st1) x) (negLit x) := by
        rw [removeAllContaining_occ_ne _ x (negLit x) (negLit_ne x)]
        exact h2
      exact removeAllContaining_empties _ (negLit x) i h2'

theorem crossProductMain_occPair (cw th : Int) (st : PreState) (x0 xf : Nat)
    (hxf : xf = x0 ∨ xf = negLit x0) :
    ((crossProductMain cw th st xf).1 = false →
      (crossProductMain cw th st xf).2.occ = st.occ ∧
      ∃ E, (crossProductMain cw th st xf).2.log = st.log ++ E ∧
        (∀ p ∈ E, (p.1 = x0 ∨ p.1 = negLit x0) ∧ p.2 ≠ []) ∧
        ∀ i, (crossProductMain cw th st xf).2.clauses.getD i [] = st.clauses.getD i [] ∨
          ((crossProductMain cw th st xf).2.clauses.getD i [] = [] ∧
            ∃ p ∈ E, p.2 = st.clauses.getD i [])) ∧
    ((crossProductMain cw th st xf).1 = true →
      ∀ i, i ∈ occList st x0 ∨ i ∈ occList st (negLit x0) →
        (crossProductMain cw th st xf).2.clauses.getD i [] = []) := by
  constructor
  · intro hf
    obtain ⟨hocc, E, hlog, hE, hcl⟩ := crossProductMain_false cw th st xf hf
    refine ⟨hocc, E, hlog, ?_, ?_⟩
    · intro p hp
      obtain ⟨hp1, hp2⟩ := hE p hp
      refine ⟨?_, hp2⟩
      rcases hxf with rfl | rfl
      · exact Or.inl hp1
      · exact Or.inr hp1
    · intro i
      rcases hcl i with hc | ⟨hc1, hc2⟩
      · exact Or.inl hc
      · exact Or.inr ⟨hc1, (xf, st.clauses.getD i []), hc2, rfl⟩
  · intro ht i hi
    refine crossProductMain_true cw th st xf ht i ?_
    rcases hxf with rfl | rfl
    · exact hi
    · rcases hi with h | h
      · right
        rw [negLit_negLit]
        exact h
      · exact Or.inl h

/-- The state of the C3 counterexample: `x = 0` occurs in clauses 0 and 1,
`¬x = 1` in clauses 2 and 3. Clause 0 is blocked on `x` (both resolvents are
tautological), so it is removed and logged; then the big clause 1 makes the
running resolvent size (21) exceed the threshold (20), and the function
returns false with the state already mutated. -/
def cexSt3 : PreState :=
  { clauses := [[0, 2], [0, 10, 12, 14, 16, 18, 20, 22, 24], [1, 3], [1, 3, 8]]
    occ := [[0, 1], [2, 3]]
    sizes := [2, 2, 1, 2, 0, 0, 0, 0, 1, 0, 1, 0, 1, 0, 1, 0, 1, 0, 1, 0, 1, 0, 1, 0, 1]
    log := [] }

/-- C3 counterexample (refuting "whenever CrossProduct returns false, the
clause database and postsolve log are unchanged"): with
`presolve_bve_clause_weight = 1` and `presolve_bve_threshold = 100`,
`CrossProduct(x0)` on `cexSt3` removes a blocked clause (logging it) and
only then aborts on the resolvent-size budget, returning false with the
clause database and the postsolve log both changed. -/
theorem CrossProduct_claim_cex :
    (crossProduct 1 100 cexSt3 0).1 = false ∧
    (crossProduct 1 100 cexSt3 0).2.log ≠ cexSt3.log ∧
    (crossProduct 1 100 cexSt3 0).2.clauses ≠ cexSt3.clauses :=
  ⟨by decide, by decide, by decide⟩

/-- C3 (amended): the two early returns (`s1 = s2 = 0` and the
`s1 * s2 > presolve_bve_threshold` guard) leave the state exactly unchanged;
whenever `CrossProduct` returns false the occurrence lists are unchanged and
the only possible change to the clause database and the postsolve log is the
removal — logged against `x` or `¬x` — of blocked clauses performed before
an early budget abort; when it returns true, every clause registered in the
occurrence list of `x` or of `¬x` is removed, hence (when the occurrence
lists cover the database, last conjunct) every clause containing `x` or `¬x`
is removed: the variable is eliminated. -/
theorem CrossProduct_contract (cw bt : Int) (st : PreState) (x0 : Nat) :
    (((st.sizes.getD x0 0 = 0 ∧ st.sizes.getD (negLit x0) 0 = 0) ∨
      (1 < st.sizes.getD x0 0 ∧ 1 < st.sizes.getD (negLit x0) 0 ∧
        bt < st.sizes.getD x0 0 * st.sizes.getD (negLit x0) 0)) →
      crossProduct cw bt st x0 = (false, st)) ∧
    ((crossProduct cw bt st x0).1 = false →
      (crossProduct cw bt st x0).2.occ = st.occ ∧
      ∃ E, (crossProduct cw bt st x0).2.log = st.log ++ E ∧
        (∀ p ∈ E, (p.1 = x0 ∨ p.1 = negLit x0) ∧ p.2 ≠ []) ∧
        ∀ i, (crossProduct cw bt st x0).2.clauses.getD i [] = st.clauses.getD i [] ∨
          ((crossProduct cw bt st x0).2.clauses.getD i [] = [] ∧
            ∃ p ∈ E, p.2 = st.clauses.getD i [])) ∧
    ((crossProduct cw bt st x0).1 = true →
      ∀ i, i ∈ occList st x0 ∨ i ∈ occList st (negLit x0) →
        (crossProduct cw bt st x0).2.clauses.getD i [] = []) ∧
    ((crossProduct cw bt st x0).1 = true →
      (∀ i, x0 ∈ st.clauses.getD i [] → i ∈ occList st x0) →
      (∀ i, negLit x0 ∈ st.clauses.getD i [] → i ∈ occList st (negLit x0)) →
      ∀ i, (x0 ∈ st.clauses.getD i [] ∨ negLit x0 ∈ st.clauses.getD i []) →
        (crossProduct cw bt st x0).2.clauses.getD i [] = []) := by
  by_cases hc1 : st.sizes.getD x0 0 = 0 ∧ st.sizes.getD (negLit x0) 0 = 0
  · have he : crossProduct cw bt st x0 = (false, st) := by
      unfold crossProduct
      rw [if_pos hc1]
    refine ⟨fun _ => he, ?_, ?_, ?_⟩
    · intro _
      rw [he]
      exact ⟨rfl, [], by simp, by simp, fun i => Or.inl rfl⟩
    · intro htrue
      rw [he] at htrue
      exact Bool.noConfusion htrue
    · intro htrue
      rw [he] at htrue
      exact Bool.noConfusion htrue
  · by_cases hc2 : 1 < st.sizes.getD x0 0 ∧ 1 < st.sizes.getD (negLit x0) 0 ∧
        bt < st.sizes.getD x0 0 * st.sizes.getD (negLit x0) 0
    · have he : crossProduct cw bt st x0 = (false, st) := by
        unfold crossProduct
        rw [if_neg hc1, if_pos hc2]
      refine ⟨fun _ => he, ?_, ?_, ?_⟩
      · intro _
        rw [he]
        exact ⟨rfl, [], by simp, by simp, fun i => Or.inl rfl⟩
      · intro htrue
        rw [he] at htrue
        exact Bool.noConfusion htrue
      · intro htrue
        rw [he] at htrue
        exact Bool.noConfusion htrue
    · have he : crossProduct cw bt st x0 = crossProductMain cw (thresholdOf cw st x0) st
          (if st.sizes.getD x0 0 < st.sizes.getD (negLit x0) 0 then negLit x0 else x0) := by
        unfold crossProduct
        rw [if_neg hc1, if_neg hc2]
      have hxf : (if st.sizes.getD x0 0 < st.sizes.getD (negLit x0) 0
            then negLit x0 else x0) = x0 ∨
          (if st.sizes.getD x0 0 < st.sizes.getD (negLit x0) 0
            then negLit x0 else x0) = negLit x0 := by
        by_cases hflip : st.sizes.getD x0 0 < st.sizes.getD (negLit x0) 0
        · rw [if_pos hflip]; exact Or.inr rfl
        · rw [if_neg hflip]; exact Or.inl rfl
      obtain ⟨hF, hT⟩ := crossProductMain_occPair cw (thresholdOf cw st x0) st x0 _ hxf
      refine ⟨?_, ?_, ?_, ?_⟩
      · intro h
        rcases h with h | h
        · exact absurd h hc1
        · exact absurd h hc2
      · intro hf
        rw [he] at hf ⊢
        exact hF hf
      · intro ht
        rw [he] at ht ⊢
        exact hT ht
      · intro ht hX hNX i hi
        rw [he] at ht ⊢
        exact hT ht i (hi.imp (hX i) (hNX i))

/-- The state of the C3 witness: one clause with `x`, one with `¬x`, one
non-tautological resolvent; the run completes and eliminates the variable. -/
def wSt3 : PreState :=
  { clauses := [[0, 2], [1, 4]]
    occ := [[0], [1]]
    sizes := [1, 1, 1, 0, 1]
    log := [] }

/-- Witness for `CrossProduct_contract`: on `wSt3`, `CrossProduct(0)` returns
true and both registered clauses are removed. -/
theorem CrossProduct_contract_witness :
    (crossProduct 1 100 wSt3 0).1 = true ∧
    ∀ i, i ∈ occList wSt3 0 ∨ i ∈ occList wSt3 (negLit 0) →
      (crossProduct 1 100 wSt3 0).2.clauses.getD i [] = [] :=
  ⟨by decide, (CrossProduct_contract 1 100 wSt3 0).2.2.1 (by decide)⟩

/-! ### `ProbeAndFindEquivalentLiteral`, the merging-partition build
(simplification.cc, lines 719-741). Modelled from the spec:
`MergingPartition` itself (merge two classes; `GetRootAndCompressPath`
returns the class representative) is not under src/, so the partition is
modelled as an idempotent representative function on literal indices;
`MergePartsOf(a, b)` redirects the class of `a` onto the class of `b`. The
source's `CHECK` at lines 736-739 (and its TODO about `x ~ ¬x` merges) is
modelled as a boolean flag that records, for each mirrored merge pair, that
the two merged classes are not mutually mirrored — exactly the situation in
which the source's `CHECK` would fire on that component. -/

/-- `partition.MergePartsOf(a, b)` on the representative function: the class
of `a` is redirected onto the class of `b`. -/
def mergeRoot (ρ : Nat → Nat) (a b : Nat) : Nat → Nat :=
  fun z => if ρ z = ρ a then ρ b else ρ z

/-- Lines 728-731: one loop iteration merges `(rep, l)` and mirrors the merge
on `(¬rep, ¬l)`; the flag records that the pre-merge classes of `l` and `¬rep`
differ (otherwise the merge identifies a literal with its own negation and
the source's `CHECK` fails). -/
def mergePairChecked (s : (Nat → Nat) × Bool) (r l : Nat) : (Nat → Nat) × Bool :=
  (mergeRoot (mergeRoot s.1 r l) (negLit r) (negLit l),
    s.2 && !decide (s.1 l = negLit (s.1 r)))

/-- Lines 720-732: for every SCC, union every later element with the
component head, mirroring each merge on the negations (a singleton component
performs no merge, matching the `component.size() > 1` guard). -/
def buildState (scc : List (List Nat)) : (Nat → Nat) × Bool :=
  scc.foldl (fun s comp =>
    match comp with
    | [] => s
    | r :: rest => rest.foldl (fun s l => mergePairChecked s r l) s) (id, true)

/-- The representative function after the build: what
`GetRootAndCompressPath` returns, and what the emitted `mapping` stores. -/
def buildRoot (scc : List (List Nat)) : Nat → Nat := (buildState scc).1

/-- All per-merge checks passed. -/
def buildOk (scc : List (List Nat)) : Bool := (buildState scc).2

theorem negLit_inj' (u v : Nat) (h : negLit u = negLit v) : u = v := by
  have := congrArg negLit h
  rwa [negLit_negLit, negLit_negLit] at this

theorem mergeRoot_pair_mirror (ρ : Nat → Nat) (r l : Nat)
    (hM : ∀ z, ρ (negLit z) = negLit (ρ z))
    (ht : ¬ (ρ l = negLit (ρ r))) :
    ∀ z, (mergeRoot (mergeRoot ρ r l) (negLit r) (negLit l)) (negLit z)
        = negLit ((mergeRoot (mergeRoot ρ r l) (negLit r) (negLit l)) z) := by
  intro z
  have h1r : (mergeRoot ρ r l) (negLit r) = negLit (ρ r) := by
    show (if ρ (negLit r) = ρ r then ρ l else ρ (negLit r)) = negLit (ρ r)
    rw [hM r, if_neg (negLit_ne (ρ r))]
  have h1l : (mergeRoot ρ r l) (negLit l) = negLit (ρ l) := by
    show (if ρ (negLit l) = ρ r then ρ l else ρ (negLit l)) = negLit (ρ l)
    rw [hM l, if_neg]
    intro h
    exact ht (by rw [← h, negLit_negLit])
  show (if (mergeRoot ρ r l) (negLit z) = (mergeRoot ρ r l) (negLit r)
      then (mergeRoot ρ r l) (negLit l) else (mergeRoot ρ r l) (negLit z))
    = negLit (if (mergeRoot ρ r l) z = (mergeRoot ρ r l) (negLit r)
      then (mergeRoot ρ r l) (negLit l) else (mergeRoot ρ r l) z)
  rw [h1r, h1l]
  show (if (if ρ (negLit z) = ρ r then ρ l else ρ (negLit z)) = negLit (ρ r)
      then negLit (ρ l) else (if ρ (negLit z) = ρ r then ρ l else ρ (negLit z)))
    = negLit (if (if ρ z = ρ r then ρ l else ρ z) = negLit (ρ r)
      then negLit (ρ l) else (if ρ z = ρ r then ρ l else ρ z))
  rw [hM z]
  by_cases hz : ρ z = ρ r
  · have c1 : ¬ (negLit (ρ z) = ρ r) := by rw [hz]; exact negLit_ne (ρ r)
    have c2 : negLit (ρ z) = negLit (ρ r) := by rw [hz]
    rw [if_neg c1, if_pos hz, if_pos c2, if_neg ht]
  · by_cases hz2 : ρ z = negLit (ρ r)
    · have c1 : negLit (ρ z) = ρ r := by rw [hz2, negLit_negLit]
      rw [if_pos c1, if_neg ht, if_neg hz, if_pos hz2, negLit_negLit]
    · have c1 : ¬ (negLit (ρ z) = ρ r) := fun h => hz2 (by rw [← h, negLit_negLit])
      have c2 : ¬ (negLit (ρ z) = negLit (ρ r)) := fun h => hz (negLit_inj' _ _ h)
      rw [if_neg c1, if_neg hz, if_neg c2, if_neg hz2]

theorem foldl_preserves {α β : Type} (P : α → Prop) (f : α → β → α)
    (hf : ∀ s b, P s → P (f s b)) :
    ∀ (L : List β) (s : α), P s → P (L.foldl f s) := by
  intro L
  induction L with
  | nil => intro s h; exact h
  | cons b L ih =>
    intro s h
    rw [List.foldl_cons]
    exact ih (f s b) (hf s b h)

/-- The fold invariant: whenever all checks so far passed, the
representative function is mirror-equivariant. -/
def MirrorState (s : (Nat → Nat) × Bool) : Prop :=
  s.2 = true → ∀ z, s.1 (negLit z) = negLit (s.1 z)

theorem mergePairChecked_preserves (r : Nat) (s : (Nat → Nat) × Bool) (l : Nat)
    (h : MirrorState s) : MirrorState (mergePairChecked s r l) := by
  intro hok
  have h2 : s.2 = true ∧ (!decide (s.1 l = negLit (s.1 r))) = true :=
    Bool.and_eq_true_iff.mp hok
  have hcond : ¬ (s.1 l = negLit (s.1 r)) := by
    have := h2.2
    simp only [Bool.not_eq_true'] at this
    exact of_decide_eq_false this
  exact mergeRoot_pair_mirror s.1 r l (h h2.1) hcond

/-- C8 (probing equivalence invariant): after the merging-partition build of
`ProbeAndFindEquivalentLiteral` — every SCC element unioned with its
component head, each merge mirrored on the negations — provided every merge
passed its check (no class was ever merged with its own mirror, the
situation the source's per-component `CHECK` at lines 736-739 guards
against), the representative of `¬l` is the negation of the representative
of `l` for every literal `l`; hence the emitted mapping, which stores the
representative of each literal, sends complementary literals to
complementary representatives. -/
theorem probe_equiv_invariant (scc : List (List Nat)) (h : buildOk scc = true) :
    ∀ l, buildRoot scc (negLit l) = negLit (buildRoot scc l) := by
  have hP : MirrorState (buildState scc) := by
    refine foldl_preserves MirrorState _ ?_ scc (id, true) ?_
    · intro s comp hs
      cases comp with
      | nil => exact hs
      | cons r rest =>
        exact foldl_preserves MirrorState _ (mergePairChecked_preserves r) rest s hs
    · intro _ z
      rfl
  exact hP h

/-- Witness for `probe_equiv_invariant`: the single component
`{x0, x1, x2}` (literal indices 0, 2, 4); all checks pass and every literal's
representative is complementary to its negation's. -/
theorem probe_equiv_invariant_witness :
    buildOk [[0, 2, 4]] = true ∧
    ∀ l, buildRoot [[0, 2, 4]] (negLit l) = negLit (buildRoot [[0, 2, 4]] l) :=
  ⟨by decide, probe_equiv_invariant [[0, 2, 4]] (by decide)⟩

end OrToolsSat
